import Mathlib

set_option autoImplicit false

/-!
Shallow embedding of the gist-fs repository (a FUSE filesystem exposing a
GitHub Gist), for checking its natural-language specification.

Source files embedded, each in its own namespace:
* `LibRs`   — src/src/lib.rs   (monolithic `GistFs`: state, `fetch`, request handlers)
* `FsRs`    — src/src/fs.rs    (`GistFiles::update` reconciler, `GistFileNode::read`)
* `NodeRs`  — src/src/node.rs  (`NodeTable` arena: lookup/forget/new_node/remove_node)
* `NTCrate` — src/node-table/src/lib.rs (standalone node table crate)
* `InodeRs` — src/src/inode.rs (`INodeTable`: insert, read_dir)

Machine integers are modelled as `Nat` with explicit `% 2 ^ 64` where the
source performs wrapping 64-bit arithmetic (`crossbeam::atomic::AtomicCell
fetch_add / fetch_sub` are wrapping by definition). Rust panics
(`unwrap` / `expect` / slice-index faults) are modelled as an explicit
`panic` constructor of the result type, never as a defined value.
-/

namespace GistFs

/-- 2 ^ 64, the modulus of wrapping u64 arithmetic. -/
def U64 : Nat := 2 ^ 64

/-- Wrapping u64 subtraction, the semantics of `AtomicCell::<u64>::fetch_sub`. -/
def wsub (a b : Nat) : Nat := (a + U64 - b % U64) % U64

/-! libc mode bits used by the sources. -/

def S_IFMT : Nat := 61440
def S_IFDIR : Nat := 16384
def S_IFREG : Nat := 32768
def S_IFLNK : Nat := 40960

/-! libc errno values used by the sources. -/

def EPERM : Int := 1
def ENOENT : Int := 2
def EIO : Int := 5
def EEXIST : Int := 17
def ENOTDIR : Int := 20
def EISDIR : Int := 21
def ENOTSUP : Int := 95

/-- `polyfuse::FileAttr`, restricted to the fields the sources read or write.
Timestamps are (seconds, nanoseconds) pairs as in `set_ctime` / `set_mtime`. -/
structure FileAttr where
  ino : Nat := 0
  mode : Nat := 0
  nlink : Nat := 0
  size : Nat := 0
  uid : Nat := 0
  gid : Nat := 0
  ctime : Nat × Nat := (0, 0)
  mtime : Nat × Nat := (0, 0)
deriving Repr, DecidableEq

/-- `polyfuse::DirEntry`: name, inode number and listing cookie (`off`).
The file-type field set by `set_typ` does not affect the encoded size nor any
claim, so it is not modelled. -/
structure DirEntry where
  name : String
  ino : Nat
  off : Nat
deriving Repr, DecidableEq

/-- Length of `DirEntry::as_ref()`: the serialized `fuse_dirent` layout is a
24-byte header followed by the name, padded to 8-byte alignment. -/
def DirEntry.encodedSize (e : DirEntry) : Nat := 8 * ((24 + e.name.length + 7) / 8)

/-- Result of a request handler: a reply value, a typed errno reply, or a
Rust panic (an uncaught fault, NOT a typed error reply). -/
inductive Res (α : Type) where
  | ok (val : α)
  | err (errno : Int)
  | panic
deriving Repr, DecidableEq

/-- `Vec::resize(n, fill)`: truncates to `n` when shorter, extends with
`fill` when longer. -/
def resize (l : List Nat) (n : Nat) (fill : Nat) : List Nat :=
  l.take n ++ List.replicate (n - l.length) fill

namespace LibRs

/-- `gist_client::GistFile` (gist-client/src/lib.rs): one remote file of the
snapshot. Only the fields the filesystem reads are modelled; `content` is the
byte string of the file. -/
structure RemoteFile where
  filename : String
  size : Nat
  truncated : Bool
  content : List Nat
deriving Repr, DecidableEq

/-- `gist_client::Gist`, restricted to the fields read by the filesystem.
The `files` HashMap is modelled as a list of its entries (the map key equals
the contained filename). -/
structure Gist where
  createdAt : Nat × Nat := (0, 0)
  updatedAt : Nat × Nat := (0, 0)
  files : List RemoteFile := []
deriving Repr, DecidableEq

/-- `GistFile` of src/src/lib.rs: a locally cached file. `content = none`
means the remote snapshot marked the content truncated and it has not been
rehydrated. -/
structure GistFile where
  attr : FileAttr
  filename : String
  rawUrl : String := ""
  content : Option (List Nat)
deriving Repr, DecidableEq

/-- `GistFsState` of src/src/lib.rs: the state behind the mutex. `etag` is
modelled as an opaque numeric token; `expired` is a UTC timestamp in
arbitrary units. -/
structure GistFsState where
  files : List (Nat × GistFile)
  entries : List DirEntry
  gist : Gist
  etag : Option Nat
  expired : Nat
deriving Repr, DecidableEq

/-- Replace the value stored under key `ino` (first component) in an
association list. -/
def updFile (files : List (Nat × GistFile)) (ino : Nat) (f : GistFile) :
    List (Nat × GistFile) :=
  files.map fun p => if p.1 == ino then (p.1, f) else p

/-- The body of the per-file loop of `GistFs::fetch` (src/src/lib.rs lines
147-172): for one remote file, find the local file with the same filename and
update its timestamps, size and (unless truncated) content; a remote file with
no local match is ignored (`tracing::warn` and `continue`). -/
def fetchApplyOne (g : Gist) (files : List (Nat × GistFile)) (rf : RemoteFile) :
    List (Nat × GistFile) :=
  match files.find? (fun p => p.2.filename == rf.filename) with
  | some (ino, f) =>
      let attr := { f.attr with ctime := g.createdAt, mtime := g.updatedAt, size := rf.size }
      let content := if !rf.truncated then some rf.content else f.content
      updFile files ino { f with attr := attr, content := content }
  | none => files

/-- The whole update loop of `GistFs::fetch` over the remote file map. -/
def fetchApply (g : Gist) (files : List (Nat × GistFile)) : List (Nat × GistFile) :=
  g.files.foldl (fetchApplyOne g) files

/-- Outcome of the network call `Client::fetch_gist`: transport/protocol
error, HTTP 304 (`None`), or a fresh snapshot with its new entity tag. -/
inductive FetchOutcome where
  | err
  | notModified
  | modified (g : Gist) (etag : Option Nat)
deriving Repr, DecidableEq

/-- `GistFs::fetch` (src/src/lib.rs lines 123-184) as a state transformer.
`now` is the current time, `cachePeriod` the configured cache period and
`outcome` the result of the conditional fetch. The returned Bool is `true`
when the function returns `Ok`, `false` when the `?` operator propagates the
transport error. Note the order of operations in the source: the expiry is
advanced BEFORE the network call is made. -/
def fetchRun (cachePeriod : Nat) (st : GistFsState) (now : Nat) (outcome : FetchOutcome) :
    Bool × GistFsState :=
  if now ≤ st.expired then
    (true, st)
  else
    let st := { st with expired := now + cachePeriod }
    match outcome with
    | FetchOutcome.err => (false, st)
    | FetchOutcome.notModified => (true, st)
    | FetchOutcome.modified g etag =>
        (true, { st with files := fetchApply g st.files, gist := g, etag := etag })

/-- `GistFs::do_read` content slicing (src/src/lib.rs lines 354-361): empty
reply when the offset is past the end, otherwise at most `size` bytes starting
at `offset`. `GistFileNode::read` in src/src/fs.rs lines 180-187 is the same
computation. -/
def readBuf (content : List Nat) (offset size : Nat) : List Nat :=
  if offset > content.length then []
  else
    let rest := content.drop offset
    rest.take (min rest.length size)

/-- `GistFs::do_write` buffer mutation (src/src/lib.rs lines 389-393):
`content.resize(offset + size, 0)` followed by
`content[offset..size].copy_from_slice(data)`, where `size = data.len()`.
The slice operation panics unless the destination range `[offset, size)` is
well formed and has exactly the length of `data`. -/
def writeBuf (content : List Nat) (offset : Nat) (data : List Nat) : Res (List Nat) :=
  let size := data.length
  let grown := resize content (offset + size) 0
  if offset ≤ size ∧ size - offset = data.length then
    Res.ok (grown.take offset ++ data ++ grown.drop size)
  else
    Res.panic

/-- `GistFs::do_setattr` (src/src/lib.rs lines 232-274). Requests against the
root reply `EPERM` before touching any state. For other inodes, the handler
applies the optional `mtime` argument (`(sec, nsec, is_now)`) and the optional
`size` argument (truncate), mirroring the size into the buffer when a content
buffer exists. -/
def doSetattr (st : GistFsState) (ino : Nat) (mtimeArg : Option (Nat × Nat × Bool))
    (sizeArg : Option Nat) (now : Nat × Nat) : Res FileAttr × GistFsState :=
  if ino == 1 then (Res.err EPERM, st)
  else
    match st.files.find? (fun p => p.1 == ino) with
    | none => (Res.err ENOENT, st)
    | some (_, file) =>
        let file :=
          match mtimeArg with
          | some (sec, nsec, isNow) =>
              if isNow then { file with attr := { file.attr with mtime := now } }
              else { file with attr := { file.attr with mtime := (sec, nsec) } }
          | none => file
        let file :=
          match sizeArg with
          | some size =>
              { file with
                attr := { file.attr with size := size },
                content := file.content.map (fun c => resize c size 0) }
          | none => file
        (Res.ok file.attr, { st with files := updFile st.files ino file })

/-- `GistFs::do_open` (src/src/lib.rs lines 316-338). The root replies
`EISDIR`; an unknown inode replies `ENOENT`; otherwise a missing (truncated)
content buffer is replaced by an empty one (`get_or_insert_with`). -/
def doOpen (st : GistFsState) (ino : Nat) : Res Unit × GistFsState :=
  if ino == 1 then (Res.err EISDIR, st)
  else
    match st.files.find? (fun p => p.1 == ino) with
    | none => (Res.err ENOENT, st)
    | some (_, file) =>
        let file := { file with content := some (file.content.getD []) }
        (Res.ok (), { st with files := updFile st.files ino file })

/-- `GistFs::do_read` (src/src/lib.rs lines 340-367). The root replies
`EISDIR`; an unknown inode `ENOENT`; a file whose content buffer is absent
panics (`expect`); otherwise the slice described by `readBuf` is replied. -/
def doRead (st : GistFsState) (ino offset size : Nat) : Res (List Nat) × GistFsState :=
  if ino == 1 then (Res.err EISDIR, st)
  else
    match st.files.find? (fun p => p.1 == ino) with
    | none => (Res.err ENOENT, st)
    | some (_, file) =>
        match file.content with
        | none => (Res.panic, st)
        | some c => (Res.ok (readBuf c offset size), st)

/-- `GistFs::do_write` (src/src/lib.rs lines 369-404). The root replies
`EISDIR`; an unknown inode `ENOENT`; a file whose content buffer is absent
panics (`expect`); otherwise the buffer is mutated as `writeBuf` describes,
the size attribute set to the new buffer length, and the written byte count
replied. -/
def doWrite (st : GistFsState) (ino offset : Nat) (data : List Nat) :
    Res Nat × GistFsState :=
  if ino == 1 then (Res.err EISDIR, st)
  else
    match st.files.find? (fun p => p.1 == ino) with
    | none => (Res.err ENOENT, st)
    | some (_, file) =>
        match file.content with
        | none => (Res.panic, st)
        | some c =>
            match writeBuf c offset data with
            | Res.ok c' =>
                let file := { file with
                  content := some c',
                  attr := { file.attr with size := c'.length } }
                (Res.ok data.length, { st with files := updFile st.files ino file })
            | _ => (Res.panic, st)

end LibRs

namespace NodeRs

/-- `DirNode` of src/src/node.rs: the two synthetic `.` / `..` entries plus
the `IndexMap` from child name to `(ino, DirEntry)`, modelled as a list in
insertion order. -/
structure DirNode where
  children : List (String × Nat × DirEntry)
  dirents : List DirEntry
deriving Repr, DecidableEq

/-- `NodeKind` of src/src/node.rs. -/
inductive NodeKind where
  | file
  | dir (d : DirNode)
deriving Repr, DecidableEq

/-- `NodeInner` of src/src/node.rs. `nlookup` is a u64 cell, kept below
`U64`. -/
structure NodeInner where
  attr : FileAttr
  kind : NodeKind
  nlookup : Nat
deriving Repr, DecidableEq

/-- `NodeTable` of src/src/node.rs: the `IndexMap` from inode number to node
record (as a list in insertion order) and the wrapping `next_ino` counter. -/
structure NodeTable where
  nodes : List (Nat × NodeInner)
  nextIno : Nat
deriving Repr, DecidableEq

/-- Look up the record stored under an inode number. -/
def NodeTable.node? (t : NodeTable) (ino : Nat) : Option NodeInner :=
  (t.nodes.find? (fun p => p.1 == ino)).map Prod.snd

/-- Replace the record stored under key `ino` in the node list (the source
mutates the record in place through its `Arc`). -/
def updNode (nodes : List (Nat × NodeInner)) (ino : Nat) (n : NodeInner) :
    List (Nat × NodeInner) :=
  nodes.map fun p => if p.1 == ino then (p.1, n) else p

/-- `NodeTable::new` (src/src/node.rs lines 88-113): a table holding only the
root (ino 1, forced directory mode, nlink 2, nlookup 1, empty children). -/
def NodeTable.new (rootAttr : FileAttr) : NodeTable :=
  let attr := { rootAttr with
    ino := 1,
    mode := (rootAttr.mode &&& (S_IFMT ^^^ (2 ^ 32 - 1))) ||| S_IFDIR,
    nlink := 2 }
  { nodes := [(1, { attr := attr,
                    kind := NodeKind.dir { children := [],
                                           dirents := [⟨".", 1, 1⟩, ⟨"..", 1, 2⟩] },
                    nlookup := 1 })],
    nextIno := 2 }

/-- `NodeTable::get_node` (src/src/node.rs lines 124-131): resolve an inode
number to a handle without touching the lookup count. A handle is modelled by
the inode number it stores; the weak reference it carries is alive exactly
while the record is in the table. -/
def NodeTable.getNode (t : NodeTable) (ino : Nat) : Option Nat :=
  (t.nodes.find? (fun p => p.1 == ino)).map (fun _ => ino)

/-- `NodeTable::lookup` (src/src/node.rs lines 136-152): resolve a child by
parent inode number and exact name, incrementing its lookup count (wrapping
u64 add). Returns the handle and the updated table. -/
def NodeTable.lookup (t : NodeTable) (parent : Nat) (name : String) :
    Option Nat × NodeTable :=
  match t.node? parent with
  | none => (none, t)
  | some p =>
      match p.kind with
      | NodeKind.file => (none, t)
      | NodeKind.dir d =>
          match d.children.find? (fun c => c.1 == name) with
          | none => (none, t)
          | some (_, nodeid, _) =>
              match t.node? nodeid with
              | none => (none, t)
              | some inner =>
                  let inner := { inner with nlookup := (inner.nlookup + 1) % U64 }
                  (some nodeid, { t with nodes := updNode t.nodes nodeid inner })

/-- `NodeTable::forget` (src/src/node.rs lines 155-162, identical to
src/node-table/src/lib.rs lines 129-136): for each `(ino, count)` pair whose
inode is present, subtract `count` from its lookup count with WRAPPING u64
subtraction (`AtomicCell::fetch_sub`); absent inodes are skipped. -/
def NodeTable.forget (t : NodeTable) (forgets : List (Nat × Nat)) : NodeTable :=
  forgets.foldl
    (fun t f =>
      match t.node? f.1 with
      | none => t
      | some n => { t with nodes := updNode t.nodes f.1 { n with nlookup := wsub n.nlookup f.2 } })
    t

/-- The kind computed by `new_node` from the mode bits: directory, regular
file, or unsupported (`none`). -/
def kindOfMode (mode ino parentIno : Nat) : Option NodeKind :=
  if mode &&& S_IFMT == S_IFDIR then
    some (NodeKind.dir { children := [], dirents := [⟨".", ino, 1⟩, ⟨"..", parentIno, 2⟩] })
  else if mode &&& S_IFMT == S_IFREG then
    some NodeKind.file
  else
    none

/-- `NodeTable::new_node` (src/src/node.rs lines 165-220). Fails `ENOENT`
when the parent is absent, `ENOTDIR` when it is a file, `EEXIST` when the
name is taken. In the vacant case the source FIRST advances `next_ino`
(`fetch_add`, wrapping) and only then checks the mode bits, so the
`ENOTSUP` failure leaves the counter advanced. On success the new record is
added and the child entry is appended with listing cookie `index + 3`. The
table is returned alongside the result because some failure paths still
mutate it. -/
def NodeTable.newNode (t : NodeTable) (parentIno : Nat) (name : String) (attr : FileAttr) :
    Except Int Nat × NodeTable :=
  match t.node? parentIno with
  | none => (Except.error ENOENT, t)
  | some parent =>
      match parent.kind with
      | NodeKind.file => (Except.error ENOTDIR, t)
      | NodeKind.dir d =>
          if (d.children.find? (fun c => c.1 == name)).isSome then
            (Except.error EEXIST, t)
          else
            let ino := t.nextIno
            let next := (t.nextIno + 1) % U64
            let attr := { attr with ino := ino }
            match kindOfMode attr.mode ino parentIno with
            | none => (Except.error ENOTSUP, { t with nextIno := next })
            | some kind =>
                let inner : NodeInner := { attr := attr, kind := kind, nlookup := 0 }
                let dirent : DirEntry := { name := name, ino := ino, off := d.children.length + 3 }
                let d' := { d with children := d.children ++ [(name, ino, dirent)] }
                let nodes := updNode t.nodes parentIno { parent with kind := NodeKind.dir d' }
                (Except.ok ino, { t with nodes := nodes ++ [(ino, inner)], nextIno := next })

/-- `NodeTable::remove_node` (src/src/node.rs lines 223-226): remove the
record stored under `ino` from the node map. Nothing else — in particular no
child entry of any directory is unlinked. -/
def NodeTable.removeNode (t : NodeTable) (ino : Nat) : NodeTable :=
  { t with nodes := t.nodes.eraseP (fun p => p.1 == ino) }

/-- Outcome of an operation on a `Node` handle that unwraps its weak
reference: the value, or the panic of `upgrade().unwrap()`. -/
inductive HRes (α : Type) where
  | ok (val : α)
  | panic
deriving Repr, DecidableEq

/-- `Node::attr` (src/src/node.rs lines 262-265, identical logic in
src/node-table/src/lib.rs lines 150-153): load the attribute through the
handle; PANICS (documented) when the record has been dropped. -/
def NodeTable.attrOf (t : NodeTable) (handle : Nat) : HRes FileAttr :=
  match t.node? handle with
  | some n => HRes.ok n.attr
  | none => HRes.panic

/-- `Node::set_attr` (src/src/node.rs lines 267-270): store an attribute
through the handle; PANICS when the record has been dropped. -/
def NodeTable.setAttr (t : NodeTable) (handle : Nat) (attr : FileAttr) : HRes NodeTable :=
  match t.node? handle with
  | some n => HRes.ok { t with nodes := updNode t.nodes handle { n with attr := attr } }
  | none => HRes.panic

end NodeRs

namespace NTCrate

/-- The `take_while` with a running byte total shared by the three readdir
implementations (src/node-table/src/lib.rs lines 261-269, src/src/node.rs
lines 69-77, src/src/lib.rs lines 301-311): collect entries while the running
total of encoded sizes stays within the buffer size. -/
def takeWithin (bufsize : Nat) (acc : Nat) : List DirEntry → List DirEntry
  | [] => []
  | e :: rest =>
      if acc + e.encodedSize ≤ bufsize then e :: takeWithin bufsize (acc + e.encodedSize) rest
      else []

/-- `DirNode::entries` (src/node-table/src/lib.rs lines 243-247, identical in
src/src/node.rs lines 51-55): the synthetic `.` / `..` entries followed by the
child entries in insertion order. -/
def entriesOf (d : NodeRs.DirNode) : List DirEntry :=
  d.dirents ++ d.children.map (fun c => c.2.2)

/-- `DirNode::reply_readdir` (src/node-table/src/lib.rs lines 249-271,
identical in src/src/node.rs lines 57-79): skip `offset` entries, then return
the longest run fitting in `bufsize`. -/
def replyReaddir (d : NodeRs.DirNode) (offset bufsize : Nat) : List DirEntry :=
  takeWithin bufsize 0 ((entriesOf d).drop offset)

/-- A directory listing whose cookies are sequential starting at `k` — the
shape produced by the constructor and `new_child` insertions (dirents carry
cookies 1 and 2, the child at index `j` carries cookie `j + 3`). -/
def cookiesFrom : List DirEntry → Nat → Bool
  | [], _ => true
  | e :: rest, k => e.off == k && cookiesFrom rest (k + 1)

/-- Paging through a directory as the FUSE caller does: start at cookie 0,
after each non-empty reply continue from the cookie (`off`) of the last
returned entry; stop on an empty reply. `fuel` bounds the number of calls. -/
def paginate (d : NodeRs.DirNode) (bufsize : Nat) : Nat → Nat → List DirEntry
  | _, 0 => []
  | offset, fuel + 1 =>
      let page := replyReaddir d offset bufsize
      match page.getLast? with
      | none => []
      | some e => page ++ paginate d bufsize e.off fuel

/-- Total encoded size of a list of directory entries. -/
def sizeSum (l : List DirEntry) : Nat := (l.map DirEntry.encodedSize).sum

/-- Result of `Node::new_child` (src/node-table/src/lib.rs): the handles can
be dead, in which case the two `expect` calls panic. -/
inductive NCRes where
  | ok (ino : Nat) (t : NodeRs.NodeTable)
  | err (errno : Int) (t : NodeRs.NodeTable)
  | panic
deriving Repr, DecidableEq

/-- `Node::new_child` (src/node-table/src/lib.rs lines 164-214). Unlike
`NodeTable::new_node` of src/src/node.rs, the counter is only READ
(`next_ino.load()`) before the mode check; `fetch_add` happens inside the
vacant arm, so every failure leaves the table unchanged. A dead parent handle
panics instead of failing `ENOENT`. -/
def newChild (t : NodeRs.NodeTable) (parentHandle : Nat) (name : String) (attr : FileAttr) :
    NCRes :=
  match t.node? parentHandle with
  | none => NCRes.panic
  | some parent =>
      let ino := t.nextIno
      let attr := { attr with ino := ino }
      match NodeRs.kindOfMode attr.mode ino parentHandle with
      | none => NCRes.err ENOTSUP t
      | some kind =>
          match parent.kind with
          | NodeRs.NodeKind.file => NCRes.err ENOTDIR t
          | NodeRs.NodeKind.dir d =>
              if (d.children.find? (fun c => c.1 == name)).isSome then
                NCRes.err EEXIST t
              else
                let next := (t.nextIno + 1) % U64
                let inner : NodeRs.NodeInner := { attr := attr, kind := kind, nlookup := 0 }
                let dirent : DirEntry := { name := name, ino := ino, off := d.children.length + 3 }
                let d' := { d with children := d.children ++ [(name, ino, dirent)] }
                let parent' := { parent with kind := NodeRs.NodeKind.dir d' }
                let nodes := NodeRs.updNode t.nodes parentHandle parent' ++ [(ino, inner)]
                NCRes.ok ino { t with nodes := nodes, nextIno := next }

/-- `Node::readdir` (src/node-table/src/lib.rs lines 224-239): resolve the
handle (`inner.upgrade()`); a DEAD handle replies `ENOENT` — this is the one
handle-based operation that degrades gracefully instead of panicking; a file
replies `ENOTDIR`; a directory replies the entries `reply_readdir` computes. -/
def readdirHandle (t : NodeRs.NodeTable) (handle : Nat) (offset bufsize : Nat) :
    Except Int (List DirEntry) :=
  match t.node? handle with
  | none => Except.error ENOENT
  | some n =>
      match n.kind with
      | NodeRs.NodeKind.file => Except.error ENOTDIR
      | NodeRs.NodeKind.dir d => Except.ok (replyReaddir d offset bufsize)

end NTCrate

namespace InodeRs

/-- `INodeKind` of src/src/inode.rs: a file, or a directory with its name to
inode-number map (`IndexMap`, modelled as a list in insertion order). -/
inductive INodeKind where
  | file
  | dir (children : List (String × Nat))
deriving Repr, DecidableEq

/-- `INode` of src/src/inode.rs (the boxed `Node` trait object only carries
the attribute, which the table mirrors in `attr`). -/
structure INode where
  attr : FileAttr
  kind : INodeKind
deriving Repr, DecidableEq

/-- `INodeTable` of src/src/inode.rs. -/
structure INodeTable where
  inodes : List (Nat × INode)
  nextId : Nat
deriving Repr, DecidableEq

def INodeTable.inode? (t : INodeTable) (ino : Nat) : Option INode :=
  (t.inodes.find? (fun p => p.1 == ino)).map Prod.snd

def updINode (inodes : List (Nat × INode)) (ino : Nat) (n : INode) : List (Nat × INode) :=
  inodes.map fun p => if p.1 == ino then (p.1, n) else p

/-- `INodeTable::new` (src/src/inode.rs lines 72-84). -/
def INodeTable.new (rootAttr : FileAttr) : INodeTable :=
  let attr := { rootAttr with ino := 1 }
  let kind := if attr.mode &&& S_IFMT == S_IFDIR then INodeKind.dir [] else INodeKind.file
  { inodes := [(1, { attr := attr, kind := kind })], nextId := 2 }

/-- `INodeTable::get` (src/src/inode.rs lines 100-102). -/
def INodeTable.get (t : INodeTable) (ino : Nat) : Option FileAttr :=
  (t.inode? ino).map INode.attr

/-- `INodeTable::insert` (src/src/inode.rs lines 104-125): fails `ENOENT` on
an absent parent, `ENOTDIR` on a file parent, `EEXIST` on a taken name; on
success assigns `next_id`, increments it, links the child and stores the
record. There is no unsupported-kind failure: any non-directory mode becomes
a file (`INode::new`). -/
def INodeTable.insert (t : INodeTable) (parent : Nat) (name : String) (nodeAttr : FileAttr) :
    Except Int Unit × INodeTable :=
  match t.inode? parent with
  | none => (Except.error ENOENT, t)
  | some p =>
      match p.kind with
      | INodeKind.dir children =>
          if (children.find? (fun c => c.1 == name)).isSome then
            (Except.error EEXIST, t)
          else
            let ino := t.nextId
            let attr := { nodeAttr with ino := ino }
            let kind := if attr.mode &&& S_IFMT == S_IFDIR then INodeKind.dir [] else INodeKind.file
            let p' := { p with kind := INodeKind.dir (children ++ [(name, ino)]) }
            (Except.ok (),
             { inodes := updINode t.inodes parent p' ++ [(ino, { attr := attr, kind := kind })],
               nextId := t.nextId + 1 })
      | INodeKind.file => (Except.error ENOTDIR, t)

/-- The entry-collecting loop of `INodeTable::read_dir` (src/src/inode.rs
lines 133-147): iterate the children paired with their index (after the skip),
silently dropping entries whose inode no longer resolves; each produced entry
carries cookie `index + 1`; stop (`break`) as soon as the running total of
encoded sizes exceeds the buffer size. There are no `.` / `..` entries. -/
def readDirLoop (t : INodeTable) (bufsize : Nat) :
    List (Nat × String × Nat) → Nat → List DirEntry
  | [], _ => []
  | (i, name, child) :: rest, total =>
      match t.inode? child with
      | none => readDirLoop t bufsize rest total
      | some c =>
          let entry : DirEntry := { name := name, ino := c.attr.ino, off := i + 1 }
          let total := total + entry.encodedSize
          if total > bufsize then [] else entry :: readDirLoop t bufsize rest total

/-- `INodeTable::read_dir` (src/src/inode.rs lines 127-152). -/
def INodeTable.readDir (t : INodeTable) (ino offset bufsize : Nat) :
    Except Int (List DirEntry) :=
  match t.inode? ino with
  | none => Except.error ENOENT
  | some nd =>
      match nd.kind with
      | INodeKind.dir children =>
          Except.ok (readDirLoop t bufsize (children.enum.drop offset) 0)
      | INodeKind.file => Except.error ENOTDIR

end InodeRs

namespace FsRs

/-- `GistFileNode` of src/src/fs.rs: the table handle is the inode number
the node was allocated under, the key of the `GistFiles` map. -/
structure GFile where
  filename : String
  content : List Nat
deriving Repr, DecidableEq

/-- The attribute built for a newly seen remote file (src/src/fs.rs lines
120-125): nlink 1, mode `S_IFREG | 0o444`, the remote size, process uid/gid. -/
def newFileAttr (size uid gid : Nat) : FileAttr :=
  { ino := 0, mode := S_IFREG ||| 292, nlink := 1, size := size, uid := uid, gid := gid }

/-- `GistFileNode::update_content` (src/src/fs.rs lines 166-172): load the
attribute through the node handle, set its size, store it back, and replace
the content buffer (the buffer itself lives in the `GFile`). Panics when the
handle is dead. -/
def updateContent (t : NodeRs.NodeTable) (handle : Nat) (size : Nat) :
    NodeRs.HRes NodeRs.NodeTable :=
  match t.attrOf handle with
  | NodeRs.HRes.panic => NodeRs.HRes.panic
  | NodeRs.HRes.ok attr => t.setAttr handle { attr with size := size }

/-- Result of `GistFiles::update`: on the `Err` propagated from `new_node`
the partially drained local map and the partially extended table are left
behind (the `mem::replace` swap is never reached). -/
inductive UpdateResult where
  | ok (files : List (Nat × GFile)) (t : NodeRs.NodeTable)
  | err (errno : Int) (files : List (Nat × GFile)) (t : NodeRs.NodeTable)
  | panic
deriving Repr, DecidableEq

/-- The loop of `GistFiles::update` (src/src/fs.rs lines 101-152) over the
remote files, carrying the current (drained) local map `cur`, the new map
`acc` under construction, and the node table. When the remote list is
exhausted, `mem::replace` commits `acc` and every file left in `cur` is
removed from the node table. -/
def updateLoop (uid gid : Nat) :
    List LibRs.RemoteFile → List (Nat × GFile) → List (Nat × GFile) →
    NodeRs.NodeTable → UpdateResult
  | [], cur, acc, t =>
      UpdateResult.ok acc (cur.foldl (fun t p => NodeRs.NodeTable.removeNode t p.1) t)
  | rf :: rest, cur, acc, t =>
      match cur.find? (fun p => p.2.filename == rf.filename) with
      | some (ino, f) =>
          let cur' := cur.eraseP (fun p => p.1 == ino)
          match updateContent t ino rf.size with
          | NodeRs.HRes.panic => UpdateResult.panic
          | NodeRs.HRes.ok t' =>
              updateLoop uid gid rest cur' (acc ++ [(ino, { f with content := rf.content })]) t'
      | none =>
          match NodeRs.NodeTable.newNode t 1 rf.filename (newFileAttr rf.size uid gid) with
          | (Except.error e, t') => UpdateResult.err e cur t'
          | (Except.ok ino, t') =>
              updateLoop uid gid rest cur
                (acc ++ [(ino, { filename := rf.filename, content := rf.content })]) t'

/-- `GistFiles::update` (src/src/fs.rs lines 101-153). -/
def update (gistFiles : List LibRs.RemoteFile) (files : List (Nat × GFile))
    (t : NodeRs.NodeTable) (uid gid : Nat) : UpdateResult :=
  updateLoop uid gid gistFiles files [] t

/-- `GistFiles::get` (src/src/fs.rs lines 96-99). -/
def filesGet (files : List (Nat × GFile)) (ino : Nat) : Option GFile :=
  (files.find? (fun p => p.1 == ino)).map Prod.snd

end FsRs

/-! ## Concrete instances used by counterexamples and witnesses -/

/-- A concrete state for the C3 counterexample: empty file table, expiry
timestamp 10. -/
def c3State : LibRs.GistFsState :=
  { files := [], entries := [], gist := {}, etag := some 7, expired := 10 }

/-- A fresh table (root = inode 1) after allocating one regular file `a`,
which receives inode 2. -/
def sampleTable : NodeRs.NodeTable :=
  ((NodeRs.NodeTable.new {}).newNode 1 "a" { mode := S_IFREG }).2

/-- The directory node of the root of `sampleTable`. -/
def sampleRootDir : NodeRs.DirNode :=
  { children := [("a", 2, ⟨"a", 2, 3⟩)], dirents := [⟨".", 1, 1⟩, ⟨"..", 1, 2⟩] }

/-- The root record of `sampleTable`. -/
def sampleRootInner : NodeRs.NodeInner :=
  { attr := { ino := 1, mode := S_IFDIR, nlink := 2 },
    kind := NodeRs.NodeKind.dir sampleRootDir,
    nlookup := 1 }

/-- A concrete `INodeTable`: root directory (inode 1) holding one regular
file `a` at inode 2. -/
def c7Table : InodeRs.INodeTable :=
  ((InodeRs.INodeTable.new { mode := S_IFDIR }).insert 1 "a" { mode := S_IFREG }).2

/-- The C1 counterexample state for `GistFs::fetch` (src/src/lib.rs): one
local file `b` at inode 2, cache expired at time 10. -/
def c1LibState : LibRs.GistFsState :=
  { files := [(2, { attr := { ino := 2, mode := S_IFREG, size := 1 },
                    filename := "b", content := some [66] })],
    entries := [], gist := {}, etag := none, expired := 10 }

/-- The C1 counterexample remote snapshot: files `b` (modified) and `d`
(newly added). -/
def c1Remote : LibRs.Gist :=
  { files := [{ filename := "b", size := 2, truncated := false, content := [66, 66] },
              { filename := "d", size := 1, truncated := false, content := [68] }] }

/-- Local `GistFiles` map for the C1 witness: file `a` at inode 2, backed by
`sampleTable`. -/
def c1Files : List (Nat × FsRs.GFile) := [(2, { filename := "a", content := [65] })]

/-- Remote snapshot list for the C1 witness: `a` updated, `c` new. -/
def c1G : List LibRs.RemoteFile :=
  [{ filename := "a", size := 2, truncated := false, content := [65, 65] },
   { filename := "c", size := 1, truncated := false, content := [67] }]

/-- The invariants `GistFiles::update` relies on, stated for the loop
arguments (`cur` = remaining local files, `g` = remaining remote files,
`t` = node table): the root exists and is a directory none of whose child
names collides with a still-unmatched remote name; every id in the table is
below the counter; table keys, local keys and local filenames are
duplicate-free; every local file is backed by a live node; remote names are
duplicate-free; and the counter cannot wrap during the remaining
allocations. -/
structure LoopInv (cur : List (Nat × FsRs.GFile)) (g : List LibRs.RemoteFile)
    (t : NodeRs.NodeTable) : Prop where
  root : ∃ r rd, t.node? 1 = some r ∧ r.kind = NodeRs.NodeKind.dir rd ∧
      ∀ rf ∈ g, (∀ p ∈ cur, p.2.filename ≠ rf.filename) →
        ∀ c ∈ rd.children, c.1 ≠ rf.filename
  ids : ∀ p ∈ t.nodes, p.1 < t.nextIno
  keys : (t.nodes.map Prod.fst).Nodup
  curKeys : (cur.map Prod.fst).Nodup
  curNames : (cur.map (fun p => p.2.filename)).Nodup
  curLive : ∀ p ∈ cur, (t.node? p.1).isSome = true
  gNames : (g.map LibRs.RemoteFile.filename).Nodup
  noWrap : t.nextIno + g.length < U64

/-- A node record with its attribute size replaced (the effect of
`GistFileNode::update_content` on the node). -/
def withSize (n : NodeRs.NodeInner) (size : Nat) : NodeRs.NodeInner :=
  { n with attr := { n.attr with size := size } }

/-- The table after `update_content` set the size attribute of node `ino`
(whose record was `n`). -/
def setSizeTable (t : NodeRs.NodeTable) (ino size : Nat) (n : NodeRs.NodeInner) :
    NodeRs.NodeTable :=
  { t with nodes := NodeRs.updNode t.nodes ino (withSize n size) }

/-- A child entry as `new_node` inserts it: name, inode, listing cookie. -/
def childEntry (name : String) (ino off : Nat) : String × Nat × DirEntry :=
  (name, ino, { name := name, ino := ino, off := off })

/-- The root record `r` (a directory with node `rd`) extended by a new child
entry at the next listing cookie. -/
def extendDir (r : NodeRs.NodeInner) (rd : NodeRs.DirNode) (name : String) (ino : Nat) :
    NodeRs.NodeInner :=
  let rd2 := { rd with children := rd.children ++ [childEntry name ino (rd.children.length + 3)] }
  { r with kind := NodeRs.NodeKind.dir rd2 }

/-- The record of a freshly allocated regular-file node. -/
def newFileInner (attr : FileAttr) (ino : Nat) : NodeRs.NodeInner :=
  { attr := { attr with ino := ino }, kind := NodeRs.NodeKind.file, nlookup := 0 }

/-- The table produced by a successful `new_node(1, name, attr)` call on a
table whose root record is `r` with directory node `rd`. -/
def allocTable (t : NodeRs.NodeTable) (name : String) (attr : FileAttr)
    (r : NodeRs.NodeInner) (rd : NodeRs.DirNode) : NodeRs.NodeTable :=
  { t with
    nodes := NodeRs.updNode t.nodes 1 (extendDir r rd name t.nextIno) ++
      [(t.nextIno, newFileInner attr t.nextIno)],
    nextIno := (t.nextIno + 1) % U64 }

/-! ## Helper lemmas -/

theorem resize_length (l : List Nat) (n fill : Nat) : (resize l n fill).length = n := by
  simp only [resize, List.length_append, List.length_take, List.length_replicate]
  omega

theorem take_min_length {α : Type} (l : List α) (n : Nat) :
    l.take (min l.length n) = l.take n := by
  rcases le_total l.length n with h | h
  · rw [min_eq_left h, List.take_length, List.take_of_length_le h]
  · rw [min_eq_right h]

theorem find?_map_keyed {α : Type} (l : List (Nat × α)) (f : Nat × α → Nat × α)
    (hf : ∀ p, (f p).1 = p.1) (j : Nat) :
    (l.map f).find? (fun p => p.1 == j) = (l.find? (fun p => p.1 == j)).map f := by
  induction l with
  | nil => rfl
  | cons hd tl ih =>
      have hkey : ((f hd).1 == j) = (hd.1 == j) := by rw [hf]
      cases h : (hd.1 == j) with
      | true => simp [List.find?, hkey, h]
      | false => simp [List.find?, hkey, h, ih]

theorem find?_eraseP_disjoint {α : Type} (l : List α) (p q : α → Bool)
    (h : ∀ a, p a = true → q a = false) :
    (l.eraseP p).find? q = l.find? q := by
  induction l with
  | nil => rfl
  | cons a tl ih =>
      by_cases hp : p a
      · rw [List.eraseP_cons_of_pos hp]
        simp [List.find?, h a hp]
      · rw [List.eraseP_cons_of_neg (by simpa using hp)]
        cases hq : q a <;> simp [List.find?, hq, ih]

theorem find?_eraseP_self {α : Type} (l : List (Nat × α)) (ino : Nat)
    (hnodup : (l.map Prod.fst).Nodup) :
    (l.eraseP (fun p => p.1 == ino)).find? (fun p => p.1 == ino) = none := by
  induction l with
  | nil => rfl
  | cons hd tl ih =>
      rw [List.map_cons, List.nodup_cons] at hnodup
      rw [List.eraseP_cons]
      cases hp : (hd.1 == ino) with
      | true =>
          simp only [hp, cond_true]
          rw [List.find?_eq_none]
          intro a ha hqa
          have h1 : hd.1 = ino := by simpa using hp
          have h2 : a.1 = ino := by simpa using hqa
          exact hnodup.1 (h1 ▸ h2 ▸ List.mem_map_of_mem Prod.fst ha)
      | false =>
          simp only [hp, cond_false]
          simp [List.find?, hp, ih hnodup.2]

theorem wsub_eq (a b : Nat) (ha : a < U64) (hb : b < U64) :
    wsub a b = if b ≤ a then a - b else a + U64 - b := by
  unfold wsub
  rw [Nat.mod_eq_of_lt hb]
  by_cases h : b ≤ a
  · rw [if_pos h]
    have h1 : a + U64 - b = (a - b) + U64 := by omega
    rw [h1, Nat.add_mod_right, Nat.mod_eq_of_lt (by omega)]
  · rw [if_neg h]
    exact Nat.mod_eq_of_lt (by omega)

/-! ### Facts about `remove_node` shared by several claims -/

theorem removeNode_node?_self (t : NodeRs.NodeTable) (ino : Nat)
    (hnodup : (t.nodes.map Prod.fst).Nodup) :
    (t.removeNode ino).node? ino = none := by
  unfold NodeRs.NodeTable.removeNode NodeRs.NodeTable.node?
  rw [find?_eraseP_self t.nodes ino hnodup]
  rfl

theorem removeNode_node?_ne (t : NodeRs.NodeTable) (ino j : Nat) (hne : j ≠ ino) :
    (t.removeNode ino).node? j = t.node? j := by
  unfold NodeRs.NodeTable.removeNode NodeRs.NodeTable.node?
  rw [find?_eraseP_disjoint]
  intro a ha
  have h1 : a.1 = ino := by simpa using ha
  simp [h1, Ne.symm hne]

theorem removeNode_lookup_none (t : NodeRs.NodeTable) (parent ino : Nat) (name : String)
    (p : NodeRs.NodeInner) (d : NodeRs.DirNode) (de : DirEntry)
    (hnodup : (t.nodes.map Prod.fst).Nodup)
    (hp : t.node? parent = some p)
    (hd : p.kind = NodeRs.NodeKind.dir d)
    (hc : d.children.find? (fun c => c.1 == name) = some (name, ino, de))
    (hne : ino ≠ parent) :
    ((t.removeNode ino).lookup parent name).1 = none := by
  have hpar : (t.removeNode ino).node? parent = some p := by
    rw [removeNode_node?_ne t ino parent (Ne.symm hne), hp]
  have hself : (t.removeNode ino).node? ino = none :=
    removeNode_node?_self t ino hnodup
  unfold NodeRs.NodeTable.lookup
  rw [hpar]
  simp only [hd, hc, hself]

/-! ## C8 — read bounds -/

/-- C8: `read(offset, max_len)` returns exactly the bytes of the buffer in
`[offset, offset + min(max_len, len - offset))`; its length is
`min(max_len, len(buffer) - offset)`; with `offset` at or past the buffer end
(including equality) the result is empty; no error is possible (the function
is total on buffers). -/
theorem c8_read_bounds (content : List Nat) (offset maxLen : Nat) :
    LibRs.readBuf content offset maxLen = (content.drop offset).take maxLen ∧
    (LibRs.readBuf content offset maxLen).length = min maxLen (content.length - offset) ∧
    (content.length ≤ offset → LibRs.readBuf content offset maxLen = []) := by
  have hmain : LibRs.readBuf content offset maxLen = (content.drop offset).take maxLen := by
    unfold LibRs.readBuf
    by_cases h : offset > content.length
    · rw [if_pos h, List.drop_eq_nil_of_le (Nat.le_of_lt h), List.take_nil]
    · rw [if_neg h]
      exact take_min_length (content.drop offset) maxLen
  refine ⟨hmain, ?_, ?_⟩
  · rw [hmain, List.length_take, List.length_drop]
  · intro h
    rw [hmain, List.drop_eq_nil_of_le h, List.take_nil]

/-- C8 witness: evaluating the third clause at a concrete buffer. -/
theorem c8_read_bounds_witness :
    LibRs.readBuf [10, 20] 2 5 = [] :=
  (c8_read_bounds [10, 20] 2 5).2.2 (by decide)

/-! ## C2 — the write path (code bug) -/

/-- C2 (code bug): `do_write` resizes the buffer to `offset + len(data)`
unconditionally and copies the incoming bytes into the destination range
`[offset, len(data))` instead of `[offset, offset + len(data))`.
Consequently a write at a nonzero offset panics (slice length mismatch:
writing 2 bytes at offset 1 of a 4-byte buffer), and a short write at
offset 0 shrinks the buffer (writing 1 byte at offset 0 of a 4-byte buffer
leaves a 1-byte buffer instead of preserving the other three bytes). -/
theorem c2_write_slice_bug :
    LibRs.writeBuf [97, 98, 99, 100] 1 [120, 121] = Res.panic ∧
    LibRs.writeBuf [97, 98, 99, 100] 0 [120] = Res.ok [120] := by
  constructor <;> rfl

/-! ## C9 — root-inode policy -/

/-- C9: against the root inode (ino 1), `setattr` replies `EPERM`
(PermissionDenied) and `open` / `read` / `write` reply `EISDIR`
(IsADirectory); in all four cases the state — including the root attributes
and every content buffer — is returned unchanged. -/
theorem c9_root_policy (st : LibRs.GistFsState) (mt : Option (Nat × Nat × Bool))
    (sz : Option Nat) (now : Nat × Nat) (offset size : Nat) (data : List Nat) :
    LibRs.doSetattr st 1 mt sz now = (Res.err EPERM, st) ∧
    LibRs.doOpen st 1 = (Res.err EISDIR, st) ∧
    LibRs.doRead st 1 offset size = (Res.err EISDIR, st) ∧
    LibRs.doWrite st 1 offset data = (Res.err EISDIR, st) :=
  ⟨rfl, rfl, rfl, rfl⟩

/-! ## C3 — reconciliation failure handling (corrected) -/

/-- C3 counterexample: at time 11 (cache expired) with the remote fetch
failing, `fetch` returns the error but the expiry timestamp HAS been advanced
to `now + cache_period` — the source advances it before making the network
call — contradicting the claim that the expiry is not advanced, so the next
directory-open within the cache period does not retry. -/
theorem c3_counterexample :
    LibRs.fetchRun 300 c3State 11 LibRs.FetchOutcome.err =
      (false, { c3State with expired := 311 }) ∧
    (311 : Nat) ≠ c3State.expired := by
  constructor <;> decide

/-- C3 (amended): when the cache has expired and the remote fetch fails, the
reconciliation is aborted before any mutation of the committed table state —
files, entries, revision tag and the cached snapshot are all left untouched —
but the expiry timestamp has already been advanced to `now + cache_period`, so
the next directory-open only retries after the new period elapses. -/
theorem c3_fetch_error_state (cachePeriod : Nat) (st : LibRs.GistFsState) (now : Nat)
    (h : st.expired < now) :
    LibRs.fetchRun cachePeriod st now LibRs.FetchOutcome.err =
      (false, { st with expired := now + cachePeriod }) := by
  unfold LibRs.fetchRun
  rw [if_neg (Nat.not_le.mpr h)]

/-- C3 witness: the amended statement evaluated at the concrete state. -/
theorem c3_fetch_error_state_witness :
    LibRs.fetchRun 300 c3State 11 LibRs.FetchOutcome.err =
      (false, { c3State with expired := 11 + 300 }) :=
  c3_fetch_error_state 300 c3State 11 (by decide)

/-! ## C4 — forget and the reference count (corrected) -/

/-- C4 counterexample: the file at inode 2 has reference count 0 (as
allocated); `forget(2, 1)` does not floor the count at zero — the u64
`fetch_sub` wraps, leaving the count at `2 ^ 64 - 1`. -/
theorem c4_counterexample :
    ((sampleTable.forget [(2, 1)]).node? 2).map NodeRs.NodeInner.nlookup =
      some (U64 - 1) ∧
    U64 - 1 ≠ 0 := by
  constructor
  · rfl
  · decide

/-- C4 (amended): `forget(ino, count)` subtracts `count` from the reference
count with wrapping u64 arithmetic: when `count` does not exceed the current
value the new count is exactly the difference (hence stays ≥ 0), but a
`forget` whose count exceeds the current value wraps modulo `2 ^ 64` instead
of flooring at zero. `forget` never triggers deletion: every inode present
before is present after (and no inode appears). -/
theorem c4_forget_no_floor (t : NodeRs.NodeTable) (ino cnt : Nat) (n : NodeRs.NodeInner)
    (hn : t.node? ino = some n) (hcnt : cnt < U64) (hlk : n.nlookup < U64) :
    ((t.forget [(ino, cnt)]).node? ino).map NodeRs.NodeInner.nlookup =
      some (if cnt ≤ n.nlookup then n.nlookup - cnt else n.nlookup + U64 - cnt) ∧
    ∀ j, ((t.forget [(ino, cnt)]).node? j).isSome = (t.node? j).isSome := by
  have hforget : t.forget [(ino, cnt)] =
      { t with nodes := NodeRs.updNode t.nodes ino { n with nlookup := wsub n.nlookup cnt } } := by
    unfold NodeRs.NodeTable.forget
    simp only [List.foldl_cons, List.foldl_nil, hn]
  have hfind : ∀ j, (t.forget [(ino, cnt)]).node? j =
      ((t.nodes.find? (fun p => p.1 == j)).map
        (fun p => if p.1 == ino then (p.1, { n with nlookup := wsub n.nlookup cnt }) else p)).map
        Prod.snd := by
    intro j
    rw [hforget]
    unfold NodeRs.NodeTable.node? NodeRs.updNode
    rw [find?_map_keyed]
    intro p
    by_cases h : p.1 == ino <;> simp [h]
  obtain ⟨p, hp, hps⟩ := Option.map_eq_some'.mp (by
    unfold NodeRs.NodeTable.node? at hn; exact hn)
  have hkey := List.find?_some hp
  constructor
  · rw [hfind ino, hp]
    simp only [Option.map_some', hkey, if_true]
    rw [wsub_eq n.nlookup cnt hlk hcnt]
  · intro j
    rw [hfind j]
    unfold NodeRs.NodeTable.node?
    cases t.nodes.find? (fun q => q.1 == j) <;> rfl

/-- C4 witness: the amended statement applied to the concrete table. -/
theorem c4_forget_no_floor_witness :
    ((sampleTable.forget [(2, 1)]).node? 2).map NodeRs.NodeInner.nlookup =
      some (if 1 ≤ 0 then 0 - 1 else 0 + U64 - 1) := by
  have h := c4_forget_no_floor sampleTable 2 1
    { attr := { ino := 2, mode := S_IFREG }, kind := NodeRs.NodeKind.file, nlookup := 0 }
    (by rfl) (by decide) (by decide)
  exact h.1

/-! ## C5 — remove and the parent child mapping (corrected) -/

/-- C5 counterexample: after `remove_node(2)`, inode 2 is gone from the
table, but the root child mapping STILL contains the name `a` — the claim
that the parent child mapping no longer contains the removed name fails. -/
theorem c5_counterexample :
    ((sampleTable.removeNode 2).node? 1).map
        (fun n => match n.kind with
                  | NodeRs.NodeKind.dir d => d.children.map Prod.fst
                  | NodeRs.NodeKind.file => []) = some ["a"] ∧
    (sampleTable.removeNode 2).node? 2 = none := by
  constructor <;> rfl

/-- C5 (amended): `remove(inode_id)` drops the inode record regardless of its
current reference count (the statement holds for every table, whatever the
reference counts), and the removed id no longer resolves — `get` returns none
and `lookup` of the child name returns none, because resolving the retained
child entry fails. However the entry is NOT unlinked from the parent child
mapping: the parent record, child entry included, is unchanged. -/
theorem c5_remove_keeps_child_entry (t : NodeRs.NodeTable) (parent ino : Nat) (name : String)
    (p : NodeRs.NodeInner) (d : NodeRs.DirNode) (de : DirEntry)
    (hnodup : (t.nodes.map Prod.fst).Nodup)
    (hp : t.node? parent = some p)
    (hd : p.kind = NodeRs.NodeKind.dir d)
    (hc : d.children.find? (fun c => c.1 == name) = some (name, ino, de))
    (hne : ino ≠ parent) :
    (t.removeNode ino).node? ino = none ∧
    (t.removeNode ino).getNode ino = none ∧
    ((t.removeNode ino).lookup parent name).1 = none ∧
    (t.removeNode ino).node? parent = some p := by
  have hself := removeNode_node?_self t ino hnodup
  have hget : (t.removeNode ino).getNode ino = none := by
    simp only [NodeRs.NodeTable.getNode, NodeRs.NodeTable.removeNode,
      find?_eraseP_self t.nodes ino hnodup, Option.map_none']
  refine ⟨hself, hget, ?_, ?_⟩
  · exact removeNode_lookup_none t parent ino name p d de hnodup hp hd hc hne
  · rw [removeNode_node?_ne t ino parent (Ne.symm hne), hp]

/-- C5 witness: the amended statement applied to the concrete table. -/
theorem c5_remove_keeps_child_entry_witness :
    (sampleTable.removeNode 2).node? 2 = none ∧
    ((sampleTable.removeNode 2).lookup 1 "a").1 = none := by
  have h := c5_remove_keeps_child_entry sampleTable 1 2 "a" sampleRootInner sampleRootDir
    ⟨"a", 2, 3⟩ (by decide) (by rfl) (by rfl) (by rfl) (by decide)
  exact ⟨h.1, h.2.2.1⟩

/-! ## C6 — stale handles (corrected) -/

/-- C6 counterexample: a handle to inode 2 obtained before removal; after
`remove_node(2)`, reading the attribute through the handle PANICS (the
documented behavior of `Node::attr` — `upgrade().unwrap()`), instead of
reporting NotFound as a typed result. -/
theorem c6_counterexample :
    (sampleTable.removeNode 2).attrOf 2 = NodeRs.HRes.panic ∧
    sampleTable.attrOf 2 = NodeRs.HRes.ok { ino := 2, mode := S_IFREG } := by
  constructor <;> rfl

/-- C6 (amended): after the backing record of a handle is removed, `get` on
its id and `lookup` of its name return none (surfaced as NotFound by the
dispatcher), and `Node::readdir` through the stale handle degrades to the
typed `ENOENT` (NotFound) reply, but attribute read/write THROUGH THE STALE
HANDLE panic (`upgrade().unwrap()`, as documented on `Node::attr` /
`Node::set_attr`) rather than degrading to a typed NotFound. -/
theorem c6_stale_handle (t : NodeRs.NodeTable) (parent ino : Nat) (name : String)
    (p : NodeRs.NodeInner) (d : NodeRs.DirNode) (de : DirEntry)
    (hnodup : (t.nodes.map Prod.fst).Nodup)
    (hp : t.node? parent = some p)
    (hd : p.kind = NodeRs.NodeKind.dir d)
    (hc : d.children.find? (fun c => c.1 == name) = some (name, ino, de))
    (hne : ino ≠ parent) :
    (t.removeNode ino).getNode ino = none ∧
    ((t.removeNode ino).lookup parent name).1 = none ∧
    (t.removeNode ino).attrOf ino = NodeRs.HRes.panic ∧
    (∀ attr, (t.removeNode ino).setAttr ino attr = NodeRs.HRes.panic) ∧
    ∀ offset bufsize,
      NTCrate.readdirHandle (t.removeNode ino) ino offset bufsize = Except.error ENOENT := by
  have hself := removeNode_node?_self t ino hnodup
  have hget : (t.removeNode ino).getNode ino = none := by
    simp only [NodeRs.NodeTable.getNode, NodeRs.NodeTable.removeNode,
      find?_eraseP_self t.nodes ino hnodup, Option.map_none']
  refine ⟨hget, removeNode_lookup_none t parent ino name p d de hnodup hp hd hc hne,
    ?_, ?_, ?_⟩
  · unfold NodeRs.NodeTable.attrOf
    rw [hself]
  · intro attr
    unfold NodeRs.NodeTable.setAttr
    rw [hself]
  · intro offset bufsize
    unfold NTCrate.readdirHandle
    rw [hself]

/-- C6 witness: the amended statement applied to the concrete table. -/
theorem c6_stale_handle_witness :
    (sampleTable.removeNode 2).getNode 2 = none ∧
    (sampleTable.removeNode 2).attrOf 2 = NodeRs.HRes.panic ∧
    NTCrate.readdirHandle (sampleTable.removeNode 2) 2 0 1000 = Except.error ENOENT := by
  have h := c6_stale_handle sampleTable 1 2 "a" sampleRootInner sampleRootDir
    ⟨"a", 2, 3⟩ (by decide) (by rfl) (by rfl) (by rfl) (by decide)
  exact ⟨h.1, h.2.2.1, h.2.2.2.2 0 1000⟩

/-! ## C10 — failed allocations and table state (corrected) -/

/-- C10 counterexample: `new_node` of src/src/node.rs called with an
unsupported kind (a symlink mode) fails `ENOTSUP` but ADVANCES the
next-inode-id counter from 2 to 3 — `fetch_add` runs before the kind check —
so the next successful allocation does not receive the id it would have
received had the failing call never happened. -/
theorem c10_counterexample :
    (NodeRs.NodeTable.new {}).newNode 1 "x" { mode := S_IFLNK } =
      (Except.error ENOTSUP, { NodeRs.NodeTable.new {} with nextIno := 3 }) ∧
    (NodeRs.NodeTable.new {}).nextIno = 2 := by
  constructor <;> rfl

/-- C10 (amended): every failing allocation adds no child entry and creates
no inode record. The next-inode counter: `Node::new_child` of the node-table
crate and `INodeTable::insert` of inode.rs leave the whole table unchanged on
every failure, and `NodeTable::new_node` of node.rs leaves it unchanged on
`ENOENT` / `EEXIST` / `ENOTDIR` failures — but its `ENOTSUP` failure advances
the wrapping next-inode counter by one, leaking an id. -/
theorem c10_failed_alloc (t : NodeRs.NodeTable) (ti : InodeRs.INodeTable)
    (parent : Nat) (name : String) (attr : FileAttr) :
    (∀ e t', t.newNode parent name attr = (Except.error e, t') →
        t'.nodes = t.nodes ∧
        (e = ENOTSUP → t'.nextIno = (t.nextIno + 1) % U64) ∧
        (e ≠ ENOTSUP → t' = t)) ∧
    (∀ e t', NTCrate.newChild t parent name attr = NTCrate.NCRes.err e t' → t' = t) ∧
    (∀ e ti', ti.insert parent name attr = (Except.error e, ti') → ti' = ti) := by
  refine ⟨?_, ?_, ?_⟩
  · intro e t' h
    simp only [NodeRs.NodeTable.newNode] at h
    repeat' split at h
    all_goals
      first
        | (injection h with he ht
           exact Except.noConfusion he)
        | (injection h with he ht
           injection he with he2
           subst he2
           subst ht
           first
             | exact ⟨rfl, fun hes => absurd hes (by decide), fun _ => rfl⟩
             | exact ⟨rfl, fun _ => rfl, fun hne => absurd rfl hne⟩)
  · intro e t' h
    simp only [NTCrate.newChild] at h
    repeat' split at h
    all_goals
      first
        | exact NTCrate.NCRes.noConfusion h
        | (injection h with he ht
           exact ht.symm)
  · intro e ti' h
    simp only [InodeRs.INodeTable.insert] at h
    repeat' split at h
    all_goals
      first
        | (injection h with he ht
           exact Except.noConfusion he)
        | (injection h with he ht
           exact ht.symm)

/-! ### Facts about the readdir budget loop (for C7) -/

theorem takeWithin_eq_take (b a : Nat) (l : List DirEntry) :
    NTCrate.takeWithin b a l = l.take (NTCrate.takeWithin b a l).length := by
  induction l generalizing a with
  | nil => rfl
  | cons e rest ih =>
      unfold NTCrate.takeWithin
      by_cases h : a + e.encodedSize ≤ b
      · rw [if_pos h, List.length_cons, List.take_succ_cons]
        exact congrArg (List.cons e) (ih (a + e.encodedSize))
      · rw [if_neg h]
        rfl

theorem takeWithin_sizeSum_le (b : Nat) (l : List DirEntry) :
    ∀ a, a ≤ b → a + NTCrate.sizeSum (NTCrate.takeWithin b a l) ≤ b := by
  induction l with
  | nil => intro a h; simpa [NTCrate.takeWithin, NTCrate.sizeSum]
  | cons e rest ih =>
      intro a h
      unfold NTCrate.takeWithin
      by_cases hc : a + e.encodedSize ≤ b
      · rw [if_pos hc]
        have := ih (a + e.encodedSize) hc
        simp only [NTCrate.sizeSum, List.map_cons, List.sum_cons] at this ⊢
        omega
      · rw [if_neg hc]
        simpa [NTCrate.sizeSum]

theorem takeWithin_ne_nil (b : Nat) (l : List DirEntry) (hne : l ≠ [])
    (hb : ∀ e ∈ l, e.encodedSize ≤ b) :
    NTCrate.takeWithin b 0 l ≠ [] := by
  cases l with
  | nil => exact absurd rfl hne
  | cons e rest =>
      unfold NTCrate.takeWithin
      rw [if_pos (by simpa using hb e (List.mem_cons_self e rest))]
      simp

theorem takeWithin_maximal (b : Nat) (l : List DirEntry) :
    ∀ a, (NTCrate.takeWithin b a l).length < l.length →
      b < a + NTCrate.sizeSum (l.take ((NTCrate.takeWithin b a l).length + 1)) := by
  induction l with
  | nil => intro a h; simp [NTCrate.takeWithin] at h
  | cons e rest ih =>
      intro a h
      unfold NTCrate.takeWithin at h ⊢
      by_cases hc : a + e.encodedSize ≤ b
      · rw [if_pos hc] at h ⊢
        rw [List.length_cons] at h
        have h' := Nat.lt_of_succ_lt_succ (by simpa using h)
        have := ih (a + e.encodedSize) h'
        rw [List.length_cons, List.take_succ_cons]
        simp only [NTCrate.sizeSum, List.map_cons, List.sum_cons] at this ⊢
        omega
      · rw [if_neg hc] at h ⊢
        simp only [List.length_nil, List.take_succ_cons, List.take_zero]
        simp only [NTCrate.sizeSum, List.map_cons, List.map_nil, List.sum_cons, List.sum_nil]
        omega

theorem cookiesFrom_off (l : List DirEntry) :
    ∀ k, NTCrate.cookiesFrom l k = true →
      ∀ i (hi : i < l.length), (l.get ⟨i, hi⟩).off = k + i := by
  induction l with
  | nil => intro k _ i hi; simp at hi
  | cons e rest ih =>
      intro k h i hi
      unfold NTCrate.cookiesFrom at h
      rw [Bool.and_eq_true] at h
      cases i with
      | zero =>
          have : e.off = k := by simpa using h.1
          simpa using this
      | succ i =>
          have hrec := ih (k + 1) h.2 i (Nat.lt_of_succ_lt_succ hi)
          rw [List.get_cons_succ, hrec]
          omega

theorem paginate_drop (d : NodeRs.DirNode) (b : Nat)
    (hwf : NTCrate.cookiesFrom (NTCrate.entriesOf d) 1 = true)
    (hb : ∀ e ∈ NTCrate.entriesOf d, e.encodedSize ≤ b) :
    ∀ fuel offset, (NTCrate.entriesOf d).length - offset ≤ fuel →
      NTCrate.paginate d b offset fuel = (NTCrate.entriesOf d).drop offset := by
  intro fuel
  induction fuel with
  | zero =>
      intro offset h
      rw [List.drop_eq_nil_of_le (by omega)]
      rfl
  | succ fuel ih =>
      intro offset h
      unfold NTCrate.paginate
      cases hlast : (NTCrate.replyReaddir d offset b).getLast? with
      | none =>
          have hpage : NTCrate.replyReaddir d offset b = [] :=
            List.getLast?_eq_none_iff.mp hlast
          simp only [hlast]
          by_cases hdrop : (NTCrate.entriesOf d).drop offset = []
          · rw [hdrop]
          · exact absurd hpage
              (takeWithin_ne_nil b _ hdrop (fun e he => hb e (List.mem_of_mem_drop he)))
      | some e =>
          have hne : NTCrate.replyReaddir d offset b ≠ [] := by
            intro h0
            rw [h0] at hlast
            exact Option.noConfusion hlast
          have hlen : 0 < (NTCrate.replyReaddir d offset b).length :=
            List.length_pos.mpr hne
          have htake : NTCrate.replyReaddir d offset b =
              ((NTCrate.entriesOf d).drop offset).take
                (NTCrate.replyReaddir d offset b).length :=
            takeWithin_eq_take b 0 _
          have hlenle : (NTCrate.replyReaddir d offset b).length ≤
              (NTCrate.entriesOf d).length - offset := by
            have hlc := congrArg List.length htake
            rw [List.length_take, List.length_drop] at hlc
            omega
          have hofflen : offset + (NTCrate.replyReaddir d offset b).length ≤
              (NTCrate.entriesOf d).length := by omega
          have hoff : e.off = offset + (NTCrate.replyReaddir d offset b).length := by
            rw [List.getLast?_eq_getElem?] at hlast
            set n := (NTCrate.replyReaddir d offset b).length with hn
            have h1 : (NTCrate.replyReaddir d offset b)[n - 1]? =
                ((NTCrate.entriesOf d).drop offset)[n - 1]? := by
              conv_lhs => rw [htake]
              rw [List.getElem?_take, if_pos (by omega)]
            rw [h1, List.getElem?_drop] at hlast
            obtain ⟨hlt2, he⟩ := List.getElem?_eq_some.mp hlast
            have hcook := cookiesFrom_off (NTCrate.entriesOf d) 1 hwf
              (offset + (n - 1)) hlt2
            rw [List.get_eq_getElem, he] at hcook
            rw [hcook]
            omega
          simp only [hlast]
          rw [hoff, ih (offset + (NTCrate.replyReaddir d offset b).length) (by omega)]
          have hfinal := List.drop_take_append_drop (NTCrate.entriesOf d) offset
            (NTCrate.replyReaddir d offset b).length
          rw [← htake] at hfinal
          exact hfinal

/-! ## C7 — readdir pagination (corrected) -/

/-- C7 counterexample: `INodeTable::read_dir` (src/src/inode.rs), one of the
two cited implementations, produces NO synthetic `.` / `..` entries: on a
root directory holding one file `a`, the full listing from cookie 0 with an
ample budget is just the `a` entry, contradicting the claim that the returned
run includes the synthetic `.` and `..` entries. -/
theorem c7_counterexample :
    c7Table.readDir 1 0 10000 = Except.ok [{ name := "a", ino := 2, off := 1 }] ∧
    ∀ e ∈ [({ name := "a", ino := 2, off := 1 } : DirEntry)], e.name ≠ "." := by
  constructor
  · rfl
  · decide

/-- C7 (amended): for `DirNode::reply_readdir` (node-table crate and node.rs)
on a directory whose entry cookies are sequential from 1 (the shape the
constructor and `new_child` produce — `.` and `..` carry cookies 1 and 2 and
the child at index j carries cookie j + 3, so the synthetic entries are
included): every reply is the contiguous run of entries starting at the given
cookie whose sizes fit the budget, it is maximal (if it stops short, the run
extended by one more entry exceeds the budget), and — provided the budget
admits every single entry — a reply at a cookie with entries remaining is
never empty, and paging from cookie 0, continuing each call at the cookie of
the last returned entry, reproduces the directory entry list exactly, each
entry exactly once. (`INodeTable::read_dir` of inode.rs instead enumerates
only the real children, with cookie index + 1 and no synthetic entries, as
the counterexample shows.) -/
theorem c7_readdir_pagination (d : NodeRs.DirNode) (b fuel : Nat)
    (hwf : NTCrate.cookiesFrom (NTCrate.entriesOf d) 1 = true)
    (hb : ∀ e ∈ NTCrate.entriesOf d, e.encodedSize ≤ b)
    (hfuel : (NTCrate.entriesOf d).length ≤ fuel) :
    NTCrate.paginate d b 0 fuel = NTCrate.entriesOf d ∧
    (∀ offset,
      NTCrate.replyReaddir d offset b =
        ((NTCrate.entriesOf d).drop offset).take (NTCrate.replyReaddir d offset b).length ∧
      NTCrate.sizeSum (NTCrate.replyReaddir d offset b) ≤ b ∧
      (offset < (NTCrate.entriesOf d).length → NTCrate.replyReaddir d offset b ≠ [])) ∧
    (∀ offset b',
      (NTCrate.replyReaddir d offset b').length <
          ((NTCrate.entriesOf d).drop offset).length →
        b' < NTCrate.sizeSum (((NTCrate.entriesOf d).drop offset).take
          ((NTCrate.replyReaddir d offset b').length + 1))) := by
  refine ⟨?_, ?_, ?_⟩
  · have h := paginate_drop d b hwf hb fuel 0 (by omega)
    simpa using h
  · intro offset
    refine ⟨takeWithin_eq_take b 0 _, ?_, ?_⟩
    · have h := takeWithin_sizeSum_le b ((NTCrate.entriesOf d).drop offset) 0 (Nat.zero_le b)
      simpa using h
    · intro hlt
      apply takeWithin_ne_nil b _ ?_ (fun e he => hb e (List.mem_of_mem_drop he))
      intro hnil
      have := congrArg List.length hnil
      rw [List.length_drop] at this
      simp at this
      omega
  · intro offset b' hlt
    have h := takeWithin_maximal b' ((NTCrate.entriesOf d).drop offset) 0 hlt
    simpa using h

/-- C7 witness: the amended statement applied to the sample root directory
(entries `.`, `..`, `a`, cookies 1, 2, 3) with budget 1000 and fuel 3. -/
theorem c7_readdir_pagination_witness :
    NTCrate.paginate sampleRootDir 1000 0 3 = NTCrate.entriesOf sampleRootDir ∧
    NTCrate.replyReaddir sampleRootDir 0 1000 ≠ [] := by
  have h := c7_readdir_pagination sampleRootDir 1000 3 (by decide) (by decide) (by decide)
  exact ⟨h.1, (h.2.1 0).2.2 (by decide)⟩

/-- C10 witness: the amended statement applied to the concrete `ENOTSUP`
failure (node.rs) and a concrete `EEXIST` failure (node-table crate). -/
theorem c10_failed_alloc_witness :
    ({ NodeRs.NodeTable.new {} with nextIno := 3 } : NodeRs.NodeTable).nodes =
      (NodeRs.NodeTable.new {}).nodes ∧
    ({ NodeRs.NodeTable.new {} with nextIno := 3 } : NodeRs.NodeTable).nextIno =
      ((NodeRs.NodeTable.new {}).nextIno + 1) % U64 := by
  have h := (c10_failed_alloc (NodeRs.NodeTable.new {}) (InodeRs.INodeTable.new {}) 1 "x"
    { mode := S_IFLNK }).1 ENOTSUP { NodeRs.NodeTable.new {} with nextIno := 3 } (by rfl)
  exact ⟨h.1, h.2.1 rfl⟩

/-! ### Facts about the node table used by the C1 reconciliation proof -/

theorem updNode_map_fst (nodes : List (Nat × NodeRs.NodeInner)) (k : Nat)
    (v : NodeRs.NodeInner) :
    (NodeRs.updNode nodes k v).map Prod.fst = nodes.map Prod.fst := by
  induction nodes with
  | nil => rfl
  | cons hd tl ih =>
      unfold NodeRs.updNode at ih ⊢
      simp only [List.map_cons, ih]
      by_cases h : hd.1 == k <;> simp [h]

theorem node?_updTable (t : NodeRs.NodeTable) (k : Nat) (v : NodeRs.NodeInner) (j : Nat) :
    ({ t with nodes := NodeRs.updNode t.nodes k v } : NodeRs.NodeTable).node? j =
      (t.node? j).map (fun n0 => if j = k then v else n0) := by
  unfold NodeRs.NodeTable.node? NodeRs.updNode
  rw [find?_map_keyed _ _ (fun p => by by_cases h : p.1 == k <;> simp [h]) j]
  cases hf : t.nodes.find? (fun p => p.1 == j) with
  | none => rfl
  | some p =>
      have hkey : p.1 = j := by simpa using List.find?_some hf
      by_cases h : j = k <;> simp [hkey, h]

theorem node?_updTable_isSome (t : NodeRs.NodeTable) (k : Nat) (v : NodeRs.NodeInner) (j : Nat) :
    (({ t with nodes := NodeRs.updNode t.nodes k v } : NodeRs.NodeTable).node? j).isSome =
      (t.node? j).isSome := by
  rw [node?_updTable]
  cases t.node? j <;> rfl

theorem find?_append_left {α : Type} (l₁ l₂ : List α) (p : α → Bool)
    (h : (l₁.find? p).isSome = true) : (l₁ ++ l₂).find? p = l₁.find? p := by
  rw [List.find?_append]
  cases hf : l₁.find? p with
  | none => rw [hf] at h; simp at h
  | some a => rfl

theorem node?_none_removeNode (t : NodeRs.NodeTable) (k j : Nat)
    (h : t.node? j = none) : (t.removeNode k).node? j = none := by
  unfold NodeRs.NodeTable.node? at h
  unfold NodeRs.NodeTable.removeNode NodeRs.NodeTable.node?
  rw [Option.map_eq_none'] at h ⊢
  rw [List.find?_eq_none] at h ⊢
  intro x hx
  exact h x ((List.eraseP_sublist _).mem hx)

theorem removeNode_keys_nodup (t : NodeRs.NodeTable) (k : Nat)
    (h : (t.nodes.map Prod.fst).Nodup) :
    ((t.removeNode k).nodes.map Prod.fst).Nodup :=
  List.Nodup.sublist (List.Sublist.map Prod.fst (List.eraseP_sublist _)) h

theorem foldl_removeNode_none (l : List (Nat × FsRs.GFile)) (j : Nat) :
    ∀ t : NodeRs.NodeTable, t.node? j = none →
      (l.foldl (fun t p => t.removeNode p.1) t).node? j = none := by
  induction l with
  | nil => intro t h; simpa using h
  | cons hd tl ih =>
      intro t h
      simp only [List.foldl_cons]
      exact ih _ (node?_none_removeNode t hd.1 j h)

theorem foldl_removeNode_mem_none (l : List (Nat × FsRs.GFile)) (j : Nat) :
    ∀ t : NodeRs.NodeTable, (t.nodes.map Prod.fst).Nodup → j ∈ l.map Prod.fst →
      (l.foldl (fun t p => t.removeNode p.1) t).node? j = none := by
  induction l with
  | nil => intro t _ h; simp at h
  | cons hd tl ih =>
      intro t hnd hmem
      simp only [List.foldl_cons]
      rw [List.map_cons, List.mem_cons] at hmem
      rcases hmem with h1 | h2
      · refine foldl_removeNode_none tl j _ ?_
        rw [h1]
        exact removeNode_node?_self t hd.1 hnd
      · exact ih _ (removeNode_keys_nodup t hd.1 hnd) h2

theorem mem_eraseP_of_key_ne {α : Type} (l : List (Nat × α)) (k : Nat) (x : Nat × α)
    (hx : x ∈ l) (hne : x.1 ≠ k) : x ∈ l.eraseP (fun p => p.1 == k) := by
  induction l with
  | nil => simp at hx
  | cons hd tl ih =>
      rw [List.eraseP_cons]
      cases h : (hd.1 == k) with
      | true =>
          simp only [cond_true]
          rcases List.mem_cons.mp hx with h1 | h2
          · rw [h1] at hne
            exact absurd (by simpa using h) hne
          · exact h2
      | false =>
          simp only [cond_false]
          rcases List.mem_cons.mp hx with h1 | h2
          · rw [h1]
            exact List.mem_cons_self _ _
          · exact List.mem_cons_of_mem _ (ih h2)

theorem node?_isSome_mem (t : NodeRs.NodeTable) (j : Nat)
    (h : (t.node? j).isSome = true) : ∃ p ∈ t.nodes, p.1 = j := by
  unfold NodeRs.NodeTable.node? at h
  cases hf : t.nodes.find? (fun p => p.1 == j) with
  | none => rw [hf] at h; simp at h
  | some p =>
      exact ⟨p, List.mem_of_find?_eq_some hf, by simpa using List.find?_some hf⟩

theorem kindOfMode_regular (ino parent : Nat) :
    NodeRs.kindOfMode (S_IFREG ||| 292) ino parent = some NodeRs.NodeKind.file := by
  unfold NodeRs.kindOfMode
  rw [if_neg (by decide), if_pos (by decide)]

theorem newNode_success (t : NodeRs.NodeTable) (name : String) (attr : FileAttr)
    (r : NodeRs.NodeInner) (rd : NodeRs.DirNode)
    (hr : t.node? 1 = some r) (hk : r.kind = NodeRs.NodeKind.dir rd)
    (hname : ∀ c ∈ rd.children, c.1 ≠ name)
    (hmode : NodeRs.kindOfMode attr.mode t.nextIno 1 = some NodeRs.NodeKind.file) :
    t.newNode 1 name attr = (Except.ok t.nextIno, allocTable t name attr r rd) := by
  have hfindc : rd.children.find? (fun c => c.1 == name) = none :=
    List.find?_eq_none.mpr (fun c hc => by simpa using hname c hc)
  simp only [NodeRs.NodeTable.newNode, allocTable, extendDir, childEntry, newFileInner,
    hr, hk, hfindc, Option.isSome_none, Bool.false_eq_true, if_false, hmode]

theorem updateContent_success (t : NodeRs.NodeTable) (ino size : Nat) (n : NodeRs.NodeInner)
    (hn : t.node? ino = some n) :
    FsRs.updateContent t ino size = NodeRs.HRes.ok (setSizeTable t ino size n) := by
  simp only [FsRs.updateContent, NodeRs.NodeTable.attrOf, NodeRs.NodeTable.setAttr,
    setSizeTable, withSize, hn]

theorem find?_updNode_isSome (nodes : List (Nat × NodeRs.NodeInner)) (k : Nat)
    (v : NodeRs.NodeInner) (j : Nat) :
    ((NodeRs.updNode nodes k v).find? (fun p => p.1 == j)).isSome =
      (nodes.find? (fun p => p.1 == j)).isSome := by
  unfold NodeRs.updNode
  rw [find?_map_keyed _ _ (fun p => by by_cases h : p.1 == k <;> simp [h]) j]
  cases nodes.find? (fun p => p.1 == j) <;> rfl

theorem allocTable_node?_old (t : NodeRs.NodeTable) (name : String) (attr : FileAttr)
    (r : NodeRs.NodeInner) (rd : NodeRs.DirNode) (j : Nat)
    (hj : (t.node? j).isSome = true) :
    (allocTable t name attr r rd).node? j =
      (t.node? j).map (fun n0 => if j = 1 then extendDir r rd name t.nextIno else n0) := by
  have hsome : ((NodeRs.updNode t.nodes 1 (extendDir r rd name t.nextIno)).find?
      (fun p => p.1 == j)).isSome = true := by
    rw [find?_updNode_isSome]
    unfold NodeRs.NodeTable.node? at hj
    cases hf : t.nodes.find? (fun p => p.1 == j) with
    | none => rw [hf] at hj; simp at hj
    | some p => rfl
  have hstep := node?_updTable t 1 (extendDir r rd name t.nextIno) j
  unfold allocTable NodeRs.NodeTable.node?
  rw [find?_append_left _ _ _ hsome]
  unfold NodeRs.NodeTable.node? at hstep
  exact hstep

theorem allocTable_keys (t : NodeRs.NodeTable) (name : String) (attr : FileAttr)
    (r : NodeRs.NodeInner) (rd : NodeRs.DirNode) :
    (allocTable t name attr r rd).nodes.map Prod.fst = t.nodes.map Prod.fst ++ [t.nextIno] := by
  unfold allocTable
  simp only [List.map_append, updNode_map_fst, List.map_cons, List.map_nil]

theorem mem_or_eq_of_mem_keys {α : Type} (l : List (Nat × α)) (k : Nat) (x0 x : Nat × α)
    (hnd : (l.map Prod.fst).Nodup) (h0 : x0 ∈ l) (hk : x0.1 = k) (hx : x ∈ l) :
    x = x0 ∨ x ∈ l.eraseP (fun p => p.1 == k) := by
  by_cases h : x.1 = k
  · left
    exact List.inj_on_of_nodup_map hnd hx h0 (by rw [h, hk])
  · right
    exact mem_eraseP_of_key_ne l k x hx h

theorem updateLoop_cons (uid gid : Nat) (rf : LibRs.RemoteFile) (rest : List LibRs.RemoteFile)
    (cur acc : List (Nat × FsRs.GFile)) (t : NodeRs.NodeTable) :
    FsRs.updateLoop uid gid (rf :: rest) cur acc t =
      match cur.find? (fun p => p.2.filename == rf.filename) with
      | some (ino, f) =>
          match FsRs.updateContent t ino rf.size with
          | NodeRs.HRes.panic => FsRs.UpdateResult.panic
          | NodeRs.HRes.ok t2 =>
              FsRs.updateLoop uid gid rest (cur.eraseP (fun p => p.1 == ino))
                (acc ++ [(ino, { f with content := rf.content })]) t2
      | none =>
          match NodeRs.NodeTable.newNode t 1 rf.filename (FsRs.newFileAttr rf.size uid gid) with
          | (Except.error e, t2) => FsRs.UpdateResult.err e cur t2
          | (Except.ok ino, t2) =>
              FsRs.updateLoop uid gid rest cur
                (acc ++ [(ino, { filename := rf.filename, content := rf.content })]) t2 := rfl

/-- The induction behind C1: one pass of the `GistFiles::update` loop, with
the invariants carried through. The conclusions: the loop succeeds; the new
map lists exactly the accumulated names followed by the remote names; the
accumulator is preserved; name-matched local files keep their inode id and
receive the new content; unmatched remote files are registered under a fresh
id at least the current counter; every entry of the result is an old
accumulator entry, a name-matched local entry, or fresh; and every local file
without a remote name match has its inode record removed. -/
theorem updateLoop_spec (uid gid : Nat) :
    ∀ (g : List LibRs.RemoteFile) (cur acc : List (Nat × FsRs.GFile)) (t : NodeRs.NodeTable),
      LoopInv cur g t →
      ∃ files' t',
        FsRs.updateLoop uid gid g cur acc t = FsRs.UpdateResult.ok files' t' ∧
        files'.map (fun p => p.2.filename) =
          acc.map (fun p => p.2.filename) ++ g.map LibRs.RemoteFile.filename ∧
        (∀ x ∈ acc, x ∈ files') ∧
        (∀ rf ∈ g, ∀ ino f, (ino, f) ∈ cur → f.filename = rf.filename →
            (ino, { f with content := rf.content }) ∈ files') ∧
        (∀ rf ∈ g, (∀ p ∈ cur, p.2.filename ≠ rf.filename) →
            ∃ ino, t.nextIno ≤ ino ∧
              (ino, ({ filename := rf.filename, content := rf.content } : FsRs.GFile)) ∈ files') ∧
        (∀ p ∈ files', p ∈ acc ∨
            (∃ q ∈ cur, p.1 = q.1 ∧ ∃ rf ∈ g, q.2.filename = rf.filename) ∨
            t.nextIno ≤ p.1) ∧
        (∀ ino f, (ino, f) ∈ cur → (∀ rf ∈ g, rf.filename ≠ f.filename) →
            t'.node? ino = none) := by
  intro g
  induction g with
  | nil =>
      intro cur acc t hinv
      refine ⟨acc, cur.foldl (fun t p => NodeRs.NodeTable.removeNode t p.1) t, by rfl, by simp,
        fun x hx => hx, by simp, by simp, fun p hp => Or.inl hp, ?_⟩
      intro ino f hmem _
      exact foldl_removeNode_mem_none cur ino t hinv.keys (List.mem_map_of_mem Prod.fst hmem)
  | cons rf rest ih =>
      intro cur acc t hinv
      have hgtail : (rest.map LibRs.RemoteFile.filename).Nodup :=
        (List.nodup_cons.mp hinv.gNames).2
      have hghead : rf.filename ∉ rest.map LibRs.RemoteFile.filename :=
        (List.nodup_cons.mp hinv.gNames).1
      cases hfind : cur.find? (fun p => p.2.filename == rf.filename) with
      | some pf =>
          obtain ⟨ino, f⟩ := pf
          have hmemf : (ino, f) ∈ cur := List.mem_of_find?_eq_some hfind
          have hnamef : f.filename = rf.filename := by
            simpa using List.find?_some hfind
          have hlive : (t.node? ino).isSome = true := hinv.curLive _ hmemf
          obtain ⟨n, hn⟩ := Option.isSome_iff_exists.mp hlive
          have hupd := updateContent_success t ino rf.size n hn
          have hdec : ∀ x ∈ cur, x = (ino, f) ∨ x ∈ cur.eraseP (fun p => p.1 == ino) :=
            fun x hx => mem_or_eq_of_mem_keys cur ino (ino, f) x hinv.curKeys hmemf rfl hx
          have hsub2 : ∀ p ∈ cur.eraseP (fun p => p.1 == ino), p ∈ cur :=
            fun p hp => (List.eraseP_sublist _).mem hp
          have hnode2 : ∀ j, (setSizeTable t ino rf.size n).node? j =
              (t.node? j).map (fun n0 => if j = ino then withSize n rf.size else n0) :=
            fun j => node?_updTable t ino (withSize n rf.size) j
          have hisSome2 : ∀ j, ((setSizeTable t ino rf.size n).node? j).isSome =
              (t.node? j).isSome := by
            intro j
            rw [hnode2 j]
            cases t.node? j <;> rfl
          have hkeys2 : (setSizeTable t ino rf.size n).nodes.map Prod.fst =
              t.nodes.map Prod.fst := updNode_map_fst t.nodes ino (withSize n rf.size)
          have hnext2 : (setSizeTable t ino rf.size n).nextIno = t.nextIno := rfl
          have hinv2 : LoopInv (cur.eraseP (fun p => p.1 == ino)) rest
              (setSizeTable t ino rf.size n) := by
            obtain ⟨r, rd, hr, hk, hstale⟩ := hinv.root
            refine ⟨?_, ?_, ?_, ?_, ?_, ?_, hgtail, ?_⟩
            · refine ⟨if (1 : Nat) = ino then withSize n rf.size else r, rd, ?_, ?_, ?_⟩
              · rw [hnode2 1, hr]
                by_cases h1 : (1 : Nat) = ino <;> simp [h1]
              · by_cases h1 : (1 : Nat) = ino
                · rw [if_pos h1]
                  have hnr : n = r := by
                    rw [← h1] at hn
                    rw [hn] at hr
                    exact Option.some_inj.mp hr
                  show n.kind = NodeRs.NodeKind.dir rd
                  rw [hnr]
                  exact hk
                · rw [if_neg h1]
                  exact hk
              · intro rf2 hrf2 hunm2 c hc
                refine hstale rf2 (List.mem_cons_of_mem rf hrf2) ?_ c hc
                intro p hp
                rcases hdec p hp with h1 | h2
                · rw [h1]
                  show f.filename ≠ rf2.filename
                  rw [hnamef]
                  intro hcontra
                  exact hghead (by rw [hcontra]; exact List.mem_map_of_mem _ hrf2)
                · exact hunm2 p h2
            · intro p hp
              have hpk : p.1 ∈ (setSizeTable t ino rf.size n).nodes.map Prod.fst :=
                List.mem_map_of_mem Prod.fst hp
              rw [hkeys2] at hpk
              obtain ⟨q, hq, hqe⟩ := List.mem_map.mp hpk
              rw [hnext2, ← hqe]
              exact hinv.ids q hq
            · rw [hkeys2]
              exact hinv.keys
            · exact List.Nodup.sublist (List.Sublist.map _ (List.eraseP_sublist _)) hinv.curKeys
            · exact List.Nodup.sublist (List.Sublist.map _ (List.eraseP_sublist _)) hinv.curNames
            · intro p hp
              rw [hisSome2]
              exact hinv.curLive p (hsub2 p hp)
            · have hw := hinv.noWrap
              rw [List.length_cons] at hw
              rw [hnext2]
              omega
          obtain ⟨files', t', heq, hnames, haccsub, hmatched, hnew, hchar, hrem⟩ :=
            ih (cur.eraseP (fun p => p.1 == ino))
              (acc ++ [(ino, { f with content := rf.content })])
              (setSizeTable t ino rf.size n) hinv2
          refine ⟨files', t', ?_, ?_, ?_, ?_, ?_, ?_, ?_⟩
          · rw [updateLoop_cons]
            simp only [hfind, hupd]
            exact heq
          · rw [hnames]
            simp only [List.map_append, List.map_cons, List.map_nil, List.append_assoc]
            simp [hnamef]
          · intro x hx
            exact haccsub x (List.mem_append_left _ hx)
          · intro rf2 hrf2 ino2 f2 hmem2 hname2
            rcases List.mem_cons.mp hrf2 with h1 | h1
            · have hx : (ino2, f2) = (ino, f) := by
                apply List.inj_on_of_nodup_map hinv.curNames hmem2 hmemf
                show f2.filename = f.filename
                rw [h1] at hname2
                rw [hname2, hnamef]
              have hxi : ino2 = ino := congrArg Prod.fst hx
              have hxf : f2 = f := congrArg Prod.snd hx
              rw [hxi, hxf, h1]
              exact haccsub _ (List.mem_append_right _ (by simp))
            · have hne2 : (ino2, f2) ≠ (ino, f) := by
                intro hcontra
                have hf2 : f2 = f := congrArg Prod.snd hcontra
                rw [hf2, hnamef] at hname2
                exact hghead (by rw [hname2]; exact List.mem_map_of_mem _ h1)
              have hmem2e : (ino2, f2) ∈ cur.eraseP (fun p => p.1 == ino) := by
                rcases hdec _ hmem2 with hcontra | hok
                · exact absurd hcontra hne2
                · exact hok
              exact hmatched rf2 h1 ino2 f2 hmem2e hname2
          · intro rf2 hrf2 hunm2
            rcases List.mem_cons.mp hrf2 with h1 | h1
            · exfalso
              apply hunm2 (ino, f) hmemf
              rw [hnamef, h1]
            · have hunm2e : ∀ p ∈ cur.eraseP (fun p => p.1 == ino),
                  p.2.filename ≠ rf2.filename :=
                fun p hp => hunm2 p (hsub2 p hp)
              obtain ⟨ino2, hge, hmem2⟩ := hnew rf2 h1 hunm2e
              rw [hnext2] at hge
              exact ⟨ino2, hge, hmem2⟩
          · intro p hp
            rcases hchar p hp with h1 | h1 | h1
            · rcases List.mem_append.mp h1 with h2 | h2
              · exact Or.inl h2
              · have hpe : p = (ino, { f with content := rf.content }) := by simpa using h2
                refine Or.inr (Or.inl ⟨(ino, f), hmemf, ?_, rf, List.mem_cons_self rf rest, hnamef⟩)
                rw [hpe]
            · obtain ⟨q, hq, hpq, rf2, hrf2, hqn⟩ := h1
              exact Or.inr (Or.inl ⟨q, hsub2 q hq, hpq, rf2, List.mem_cons_of_mem rf hrf2, hqn⟩)
            · rw [hnext2] at h1
              exact Or.inr (Or.inr h1)
          · intro ino2 f2 hmem2 hng
            have hne2 : (ino2, f2) ≠ (ino, f) := by
              intro hcontra
              apply hng rf (List.mem_cons_self rf rest)
              have hf2 : f2 = f := congrArg Prod.snd hcontra
              rw [hf2, hnamef]
            have hmem2e : (ino2, f2) ∈ cur.eraseP (fun p => p.1 == ino) := by
              rcases hdec _ hmem2 with hcontra | hok
              · exact absurd hcontra hne2
              · exact hok
            exact hrem ino2 f2 hmem2e (fun rf2 hrf2 => hng rf2 (List.mem_cons_of_mem rf hrf2))
      | none =>
          obtain ⟨r, rd, hr, hk, hstale⟩ := hinv.root
          have hunm : ∀ p ∈ cur, p.2.filename ≠ rf.filename := by
            intro p hp
            have := List.find?_eq_none.mp hfind p hp
            simpa using this
          have hnostale : ∀ c ∈ rd.children, c.1 ≠ rf.filename :=
            hstale rf (List.mem_cons_self rf rest) hunm
          have hmode : NodeRs.kindOfMode (FsRs.newFileAttr rf.size uid gid).mode t.nextIno 1 =
              some NodeRs.NodeKind.file := kindOfMode_regular t.nextIno 1
          have halloc := newNode_success t rf.filename (FsRs.newFileAttr rf.size uid gid) r rd
            hr hk hnostale hmode
          have hnoWrap0 : t.nextIno + 1 + rest.length < U64 := by
            have hw := hinv.noWrap
            rw [List.length_cons] at hw
            omega
          have hnext2 : (allocTable t rf.filename (FsRs.newFileAttr rf.size uid gid) r rd).nextIno =
              t.nextIno + 1 := by
            show (t.nextIno + 1) % U64 = t.nextIno + 1
            exact Nat.mod_eq_of_lt (by omega)
          have h1live : (t.node? 1).isSome = true := by rw [hr]; rfl
          have hold : ∀ j, (t.node? j).isSome = true →
              (allocTable t rf.filename (FsRs.newFileAttr rf.size uid gid) r rd).node? j =
                (t.node? j).map
                  (fun n0 => if j = 1 then extendDir r rd rf.filename t.nextIno else n0) :=
            fun j hj => allocTable_node?_old t rf.filename _ r rd j hj
          have hkeysA := allocTable_keys t rf.filename (FsRs.newFileAttr rf.size uid gid) r rd
          have hfresh : t.nextIno ∉ t.nodes.map Prod.fst := by
            intro hmem
            obtain ⟨q, hq, hqe⟩ := List.mem_map.mp hmem
            have := hinv.ids q hq
            omega
          have hinv2 : LoopInv cur rest
              (allocTable t rf.filename (FsRs.newFileAttr rf.size uid gid) r rd) := by
            refine ⟨?_, ?_, ?_, hinv.curKeys, hinv.curNames, ?_, hgtail, ?_⟩
            · refine ⟨extendDir r rd rf.filename t.nextIno,
                { rd with children := rd.children ++ [childEntry rf.filename t.nextIno (rd.children.length + 3)] },
                ?_, rfl, ?_⟩
              · rw [hold 1 h1live, hr]
                simp
              · intro rf2 hrf2 hunm2 c hc
                rcases List.mem_append.mp hc with h1 | h1
                · exact hstale rf2 (List.mem_cons_of_mem rf hrf2) hunm2 c h1
                · have hce : c = childEntry rf.filename t.nextIno (rd.children.length + 3) := by
                    simpa using h1
                  rw [hce]
                  show rf.filename ≠ rf2.filename
                  intro hcontra
                  exact hghead (by rw [hcontra]; exact List.mem_map_of_mem _ hrf2)
            · intro p hp
              have hpk : p.1 ∈ t.nodes.map Prod.fst ++ [t.nextIno] := by
                rw [← hkeysA]
                exact List.mem_map_of_mem Prod.fst hp
              rw [hnext2]
              rcases List.mem_append.mp hpk with h1 | h1
              · obtain ⟨q, hq, hqe⟩ := List.mem_map.mp h1
                have := hinv.ids q hq
                omega
              · have : p.1 = t.nextIno := by simpa using h1
                omega
            · rw [hkeysA, List.nodup_append]
              refine ⟨hinv.keys, List.nodup_singleton _, ?_⟩
              intro a ha hb
              have hab : a = t.nextIno := by simpa using hb
              rw [hab] at ha
              exact hfresh ha
            · intro p hp
              have hlv := hinv.curLive p hp
              obtain ⟨v, hv⟩ := Option.isSome_iff_exists.mp hlv
              rw [hold p.1 hlv, hv]
              rfl
            · rw [hnext2]
              omega
          obtain ⟨files', t', heq, hnames, haccsub, hmatched, hnew, hchar, hrem⟩ :=
            ih cur (acc ++ [(t.nextIno, { filename := rf.filename, content := rf.content })])
              (allocTable t rf.filename (FsRs.newFileAttr rf.size uid gid) r rd) hinv2
          refine ⟨files', t', ?_, ?_, ?_, ?_, ?_, ?_, ?_⟩
          · rw [updateLoop_cons]
            simp only [hfind, halloc]
            exact heq
          · rw [hnames]
            simp [List.append_assoc]
          · intro x hx
            exact haccsub x (List.mem_append_left _ hx)
          · intro rf2 hrf2 ino2 f2 hmem2 hname2
            rcases List.mem_cons.mp hrf2 with h1 | h1
            · exfalso
              apply hunm (ino2, f2) hmem2
              rw [hname2, h1]
            · exact hmatched rf2 h1 ino2 f2 hmem2 hname2
          · intro rf2 hrf2 hunm2
            rcases List.mem_cons.mp hrf2 with h1 | h1
            · refine ⟨t.nextIno, Nat.le_refl _, ?_⟩
              rw [h1]
              exact haccsub _ (List.mem_append_right _ (by simp))
            · obtain ⟨ino2, hge, hmem2⟩ := hnew rf2 h1 hunm2
              rw [hnext2] at hge
              exact ⟨ino2, by omega, hmem2⟩
          · intro p hp
            rcases hchar p hp with h1 | h1 | h1
            · rcases List.mem_append.mp h1 with h2 | h2
              · exact Or.inl h2
              · have hpe : p =
                    (t.nextIno, ({ filename := rf.filename, content := rf.content } : FsRs.GFile)) := by
                  simpa using h2
                refine Or.inr (Or.inr ?_)
                rw [hpe]
            · obtain ⟨q, hq, hpq, rf2, hrf2, hqn⟩ := h1
              exact Or.inr (Or.inl ⟨q, hq, hpq, rf2, List.mem_cons_of_mem rf hrf2, hqn⟩)
            · rw [hnext2] at h1
              exact Or.inr (Or.inr (by omega))
          · intro ino2 f2 hmem2 hng
            exact hrem ino2 f2 hmem2 (fun rf2 hrf2 => hng rf2 (List.mem_cons_of_mem rf hrf2))

/-! ## C1 — reconciliation (corrected) -/

/-- C1 counterexample: the reconciliation in `GistFs::fetch` (src/src/lib.rs)
is NOT the one the claim describes. Local file set has one file `b`; the
modified remote snapshot has files `b` and `d`. After the reconciliation the
table still contains only `b` — the newly added remote file `d` is ignored
(the source logs `ignore a newly added file`), no inode is allocated for it. -/
theorem c1_counterexample :
    ((LibRs.fetchRun 300 c1LibState 11 (LibRs.FetchOutcome.modified c1Remote (some 1))).2.files.map
      (fun p => p.2.filename)) = ["b"] ∧
    ∀ p ∈ (LibRs.fetchRun 300 c1LibState 11
        (LibRs.FetchOutcome.modified c1Remote (some 1))).2.files,
      p.2.filename ≠ "d" := by
  constructor
  · rfl
  · decide

/-- C1 (amended): the name-keyed, id-stable reconciliation holds for
`GistFiles::update` (src/src/fs.rs) over the node table: under the table
invariants (root is a directory, ids below the counter, duplicate-free keys
and names, locals backed by live nodes) and provided no unmatched remote name
collides with a stale root child entry, the update succeeds and
(1) the resulting map lists exactly the remote file names;
(2) each remote file whose name matches a local file keeps that file inode id
    (with the new content);
(3) each remote file with no local match is registered under a fresh id never
    previously used — at least the counter, outside the table and outside the
    local map;
(4) each local file with no remote match has its inode record dropped, so its
    id no longer resolves, and it is absent from the new map.
`GistFs::fetch` (src/src/lib.rs) does NOT implement this reconciliation: it
only updates name-matching files in place, ignores newly added remote files
and never removes local files, as the counterexample shows. -/
theorem c1_update_reconciliation (g : List LibRs.RemoteFile)
    (files : List (Nat × FsRs.GFile)) (t : NodeRs.NodeTable) (uid gid : Nat)
    (hinv : LoopInv files g t) :
    ∃ files' t',
      FsRs.update g files t uid gid = FsRs.UpdateResult.ok files' t' ∧
      files'.map (fun p => p.2.filename) = g.map LibRs.RemoteFile.filename ∧
      (∀ rf ∈ g, ∀ ino f, (ino, f) ∈ files → f.filename = rf.filename →
          (ino, { f with content := rf.content }) ∈ files') ∧
      (∀ rf ∈ g, (∀ p ∈ files, p.2.filename ≠ rf.filename) →
          ∃ ino, (ino, ({ filename := rf.filename, content := rf.content } : FsRs.GFile)) ∈ files' ∧
            t.nextIno ≤ ino ∧ (∀ p ∈ t.nodes, p.1 ≠ ino) ∧ (∀ p ∈ files, p.1 ≠ ino)) ∧
      (∀ ino f, (ino, f) ∈ files → (∀ rf ∈ g, rf.filename ≠ f.filename) →
          t'.node? ino = none ∧ ∀ p ∈ files', p.1 ≠ ino) := by
  obtain ⟨files', t', heq, hnames, haccsub, hmatched, hnew, hchar, hrem⟩ :=
    updateLoop_spec uid gid g files [] t hinv
  refine ⟨files', t', heq, by simpa using hnames, hmatched, ?_, ?_⟩
  · intro rf hrf hunm
    obtain ⟨ino, hge, hmem⟩ := hnew rf hrf hunm
    refine ⟨ino, hmem, hge, ?_, ?_⟩
    · intro p hp
      have := hinv.ids p hp
      omega
    · intro p hp
      have hlv := hinv.curLive p hp
      obtain ⟨q, hq, hqe⟩ := node?_isSome_mem t p.1 hlv
      have := hinv.ids q hq
      omega
  · intro ino f hmem hng
    have hlv := hinv.curLive (ino, f) hmem
    obtain ⟨q0, hq0, hq0e⟩ := node?_isSome_mem t ino hlv
    have hlt : ino < t.nextIno := by
      have := hinv.ids q0 hq0
      omega
    refine ⟨hrem ino f hmem hng, ?_⟩
    intro p hp hcontra
    rcases hchar p hp with h1 | h1 | h1
    · simp at h1
    · obtain ⟨q, hq, hpq, rf2, hrf2, hqn⟩ := h1
      have hq1 : q.1 = ino := by rw [← hpq]; exact hcontra
      have hqe : q = (ino, f) :=
        List.inj_on_of_nodup_map hinv.curKeys hq hmem (by rw [hq1])
      apply hng rf2 hrf2
      rw [hqe] at hqn
      exact hqn.symm
    · rw [hcontra] at h1
      omega

/-- C1 witness: the amended statement, applied to the concrete table holding
file `a` (inode 2) against the remote snapshot with `a` updated and `c` new:
the reconciliation succeeds and produces exactly the names `a`, `c`. -/
theorem c1_update_reconciliation_witness :
    ∃ files' t', FsRs.update c1G c1Files sampleTable 0 0 = FsRs.UpdateResult.ok files' t' ∧
      files'.map (fun p => p.2.filename) = ["a", "c"] := by
  have hinv : LoopInv c1Files c1G sampleTable := by
    refine ⟨⟨sampleRootInner, sampleRootDir, by rfl, by rfl, by decide⟩,
      ?_, ?_, ?_, ?_, ?_, ?_, ?_⟩
    · decide
    · decide
    · decide
    · decide
    · decide
    · decide
    · decide
  obtain ⟨files', t', heq, hnames, -⟩ :=
    c1_update_reconciliation c1G c1Files sampleTable 0 0 hinv
  exact ⟨files', t', heq, by rw [hnames]; rfl⟩

end GistFs
